import Mathlib

/-!
# Litholog: a verification development

A shallow embedding of the `litholog` geotechnical description engine.
The data model follows `include/litholog.h` (the flat record with `int`
sentinel fields, array-plus-count and pointer-plus-flag encodings).
The engine itself (normalizer, vocabulary matcher, secondary-constituent
and strength-parameter extractors, confidence scorer, generator,
similarity engine) is not part of the visible repository; those
definitions are modelled from the specification, as noted in their
doc comments.  C `double` values are modelled as exact rationals `ℚ`;
C strings as `String`; nullable pointers as `Option`.
-/

set_option maxRecDepth 8000

/-- Material type enum from `litholog.h` (`LITHOLOG_MATERIAL_SOIL = 0`,
`LITHOLOG_MATERIAL_ROCK = 1`). -/
inductive litholog_material_type_t where
  | SOIL : litholog_material_type_t
  | ROCK : litholog_material_type_t
deriving DecidableEq

/-- Strength parameter kind enum from `litholog.h`
(`UCS = 0`, `UNDRAINED_SHEAR = 1`, `SPT_N_VALUE = 2`, `FRICTION_ANGLE = 3`). -/
inductive litholog_strength_parameter_type_t where
  | UCS : litholog_strength_parameter_type_t
  | UNDRAINED_SHEAR : litholog_strength_parameter_type_t
  | SPT_N_VALUE : litholog_strength_parameter_type_t
  | FRICTION_ANGLE : litholog_strength_parameter_type_t
deriving DecidableEq

/-- Secondary constituent record from `litholog.h`: `{char* amount; char* soil_type;}`. -/
structure litholog_secondary_constituent_t where
  amount : String
  soil_type : String
deriving DecidableEq

/-- Strength range from `litholog.h`: bounds, typical value and its presence flag. -/
structure litholog_strength_range_t where
  lower_bound : ℚ
  upper_bound : ℚ
  typical_value : ℚ
  has_typical_value : Int
deriving DecidableEq

/-- Strength parameters from `litholog.h`. -/
structure litholog_strength_parameters_t where
  parameter_type : litholog_strength_parameter_type_t
  value_range : litholog_strength_range_t
  confidence : ℚ
deriving DecidableEq

/-- The classification record from `litholog.h`.  Soil and rock
classification fields are C `int`s where values `< 0` indicate "not set";
the secondary-constituent array is a list plus its separate `int` count
field; the optional strength-parameter component is a nullable pointer
(`Option`) plus the separate `has_strength_parameters` flag. -/
structure litholog_soil_description_t where
  raw_description : String
  material_type : litholog_material_type_t
  consistency : Int
  density : Int
  primary_soil_type : Int
  rock_strength : Int
  weathering_grade : Int
  rock_structure : Int
  primary_rock_type : Int
  secondary_constituents : List litholog_secondary_constituent_t
  secondary_constituents_count : Int
  strength_parameters : Option litholog_strength_parameters_t
  has_strength_parameters : Int
  confidence : ℚ

/-! ## Ontology store

Modelled from the spec: a read-only mapping, per category, from canonical
phrases (including synonyms such as "v stiff" ≡ "very stiff") to the
classification value (the `int` enum code of `litholog.h`), plus
qualitative→numeric strength tables.  Canonical display entries come
first; synonym entries follow, so reverse lookup by code finds the
canonical display phrase. -/

def consistencyTable : List (String × Int) :=
  [("very soft", 0), ("soft", 1), ("firm", 2), ("stiff", 3), ("very stiff", 4),
   ("hard", 5), ("soft to firm", 6), ("firm to stiff", 7),
   ("stiff to very stiff", 8), ("v stiff", 4)]

def densityTable : List (String × Int) :=
  [("very loose", 0), ("loose", 1), ("medium dense", 2), ("dense", 3), ("very dense", 4)]

def soilTypeTable : List (String × Int) :=
  [("clay", 0), ("silt", 1), ("sand", 2), ("gravel", 3), ("peat", 4), ("organic", 5)]

def rockStrengthTable : List (String × Int) :=
  [("very weak", 0), ("weak", 1), ("moderately weak", 2), ("moderately strong", 3),
   ("strong", 4), ("very strong", 5), ("extremely strong", 6)]

def weatheringTable : List (String × Int) :=
  [("fresh", 0), ("slightly weathered", 1), ("moderately weathered", 2),
   ("highly weathered", 3), ("completely weathered", 4)]

def rockStructureTable : List (String × Int) :=
  [("massive", 0), ("bedded", 1), ("jointed", 2), ("fractured", 3),
   ("foliated", 4), ("laminated", 5)]

def rockTypeTable : List (String × Int) :=
  [("limestone", 0), ("sandstone", 1), ("mudstone", 2), ("shale", 3), ("granite", 4),
   ("basalt", 5), ("chalk", 6), ("dolomite", 7), ("quartzite", 8), ("slate", 9),
   ("schist", 10), ("gneiss", 11), ("marble", 12), ("conglomerate", 13), ("breccia", 14)]

/-- Modelled from the spec: material-type keywords; when present in the
token stream they fix the material branch. -/
def materialTable : List (String × Int) := [("soil", 0), ("rock", 1)]

/-- Modelled from the spec (§4.6): the qualifier markers that introduce a
secondary constituent. -/
def qualifierMarkers : List String :=
  ["with", "having", "containing", "trace of", "occasional", "some", "frequent"]

/-- All known multi-word canonical phrases, as word lists, sorted by
word count descending, so that a first match in this list is a longest
match (spec §4.3: greedy longest-match substitution). -/
def phraseTable : List (List String) :=
  [["stiff", "to", "very", "stiff"],
   ["soft", "to", "firm"], ["firm", "to", "stiff"],
   ["very", "soft"], ["very", "stiff"], ["v", "stiff"], ["very", "loose"],
   ["medium", "dense"], ["very", "dense"], ["very", "weak"],
   ["moderately", "weak"], ["moderately", "strong"], ["very", "strong"],
   ["extremely", "strong"], ["slightly", "weathered"], ["moderately", "weathered"],
   ["highly", "weathered"], ["completely", "weathered"], ["trace", "of"]]

/-- Modelled from the spec (§4.7): qualitative consistency code →
undrained shear strength range (kPa), e.g. STIFF → 75–150. -/
def consistencyShearTable : List (Int × ℕ × ℕ) :=
  [(0, 0, 20), (1, 20, 40), (2, 40, 75), (3, 75, 150), (4, 150, 300),
   (5, 300, 600), (6, 20, 75), (7, 40, 150), (8, 75, 300)]

/-- Modelled from the spec (§4.7): qualitative density code → SPT N-value range. -/
def densitySptTable : List (Int × ℕ × ℕ) :=
  [(0, 0, 4), (1, 4, 10), (2, 10, 30), (3, 30, 50), (4, 50, 100)]

/-- Modelled from the spec (§4.7): qualitative rock strength code → UCS range (MPa). -/
def rockUcsTable : List (Int × ℕ × ℕ) :=
  [(0, 0, 1), (1, 1, 5), (2, 5, 12), (3, 12, 50), (4, 50, 100),
   (5, 100, 250), (6, 250, 400)]

/-- Modelled from the spec (§4.7): explicit numeric cue tokens and the
strength-parameter kind code they indicate. -/
def strengthCueTable : List (String × Int) :=
  [("spt", 2), ("kpa", 1), ("mpa", 0), ("degrees", 3), ("deg", 3)]

/-! ## Normalizer / tokenizer

Modelled from the spec (§4.3): lowercase, strip punctuation, collapse
whitespace, then greedy longest-match substitution of multi-word
canonical phrases into single match units.  Hyphens are split into word
boundaries; known hyphenated compounds ("soft-to-firm") are re-merged by
the phrase substitution, which realizes the spec's hyphen rule. -/

/-- Normalize one character: letters are lowercased, digits kept, every
other character becomes a space (stripped punctuation). -/
def cleanChar (c : Char) : Char :=
  if c.isAlpha then c.toLower else if c.isDigit then c else ' '

/-- Split a character list at spaces into fields (possibly empty ones);
always returns at least one field. -/
def fieldsOf : List Char → List (List Char)
  | [] => [[]]
  | c :: cs =>
    match fieldsOf cs with
    | [] => [[c]]
    | w :: ws => if c = ' ' then [] :: w :: ws else (c :: w) :: ws

/-- Split a character list into space-separated words (non-empty fields). -/
def wordsOf (cs : List Char) : List (List Char) :=
  (fieldsOf cs).filter (fun w => !w.isEmpty)

/-- The raw word tokens of a source string: normalized characters, split
on whitespace. -/
def tokensOf (s : String) : List String :=
  (wordsOf (s.data.map cleanChar)).map (fun w => String.mk w)

/-- The canonical single-unit name of a phrase: its words joined by single spaces. -/
def unitName (p : List String) : String :=
  match p with
  | [] => ""
  | [w] => w
  | w :: rest => w ++ " " ++ unitName rest

/-- The longest known multi-word phrase that is a word-prefix of `ws`
(`phraseTable` is sorted longest first). -/
def findPhrase (ws : List String) : Option (List String) :=
  phraseTable.find? (fun p => p.isPrefixOf ws)

theorem phraseTable_length_pos : ∀ p ∈ phraseTable, 0 < p.length := by decide

/-- Greedy longest-match substitution, with explicit fuel (the fuel is
always at least the list length, and every step consumes at least one
word, so the fuel never runs out). -/
def mergeAux : ℕ → List String → List String
  | 0, _ => []
  | _ + 1, [] => []
  | fuel + 1, w :: rest =>
    match findPhrase (w :: rest) with
    | some p => unitName p :: mergeAux fuel ((w :: rest).drop p.length)
    | none => w :: mergeAux fuel rest

/-- Greedy longest-match substitution of known multi-word phrases into
single match units (spec §4.3). -/
def mergePhrases (ws : List String) : List String := mergeAux ws.length ws

/-- The fully normalized match units of a source string. -/
def unitsOf (s : String) : List String := mergePhrases (tokensOf s)

/-! ## Similarity engine

Modelled from the spec (§4.2): `similarity(a,b) = 1 - distance(a,b) /
max(len a, len b)` (and `1` when both strings are empty), and
`fuzzy_match` keeping the best-scoring option with ties broken by first
occurrence, returning none when the best score is below the threshold.
Scores are carried as exact `(distance, maxlen)` pairs and compared by
cross-multiplication, which is exact rational comparison. -/

/-- One row of the Levenshtein dynamic programme at unit costs: from the
distances of `s` against every suffix of `ys` (aligned with the
suffixes, ending at `[]`), the distances of `x :: s`.  Each cell is
shared, so the whole table is quadratic. -/
def levRowStep (x : Char) : List Char → List ℕ → List ℕ
  | [], prev => [1 + prev.headD 0]
  | y :: ytail, prev =>
    match prev with
    | [] => []
    | p0 :: ptail =>
      let tail := levRowStep x ytail ptail
      (min (1 + p0)
        (min (1 + tail.headD 0) ((if x = y then 0 else 1) + ptail.headD 0))) :: tail

/-- The base row: distances of `[]` against every suffix of `ys`. -/
def levInitRow : List Char → List ℕ
  | [] => [0]
  | _ :: yt => (yt.length + 1) :: levInitRow yt

/-- Quadratic-time Levenshtein distance; `levDP_eq` proves it equal to
the textbook `levenshtein` at unit cost. -/
def levDP (xs ys : List Char) : ℕ :=
  (xs.foldr (fun x r => levRowStep x ys r) (levInitRow ys)).headD 0

/-- The reference value of each DP row entry. -/
def levSpecRow (s : List Char) : List Char → List ℕ
  | [] => [levenshtein Levenshtein.defaultCost s []]
  | y :: yt => levenshtein Levenshtein.defaultCost s (y :: yt) :: levSpecRow s yt

theorem levSpecRow_headD (s ys : List Char) :
    (levSpecRow s ys).headD 0 = levenshtein Levenshtein.defaultCost s ys := by
  cases ys <;> rfl

theorem lev_nil_eq_length (ys : List Char) :
    levenshtein Levenshtein.defaultCost ([] : List Char) ys = ys.length := by
  induction ys with
  | nil => simp
  | cons y yt ih =>
    rw [levenshtein_nil_cons]
    simp only [Levenshtein.defaultCost_insert, ih, List.length_cons]
    omega

theorem lev_cons_nil_succ (x : Char) (s : List Char) :
    levenshtein Levenshtein.defaultCost (x :: s) ([] : List Char) =
      1 + levenshtein Levenshtein.defaultCost s [] := by
  rw [levenshtein_cons_nil]
  simp [Levenshtein.defaultCost_delete]

theorem levInitRow_eq (ys : List Char) : levInitRow ys = levSpecRow [] ys := by
  induction ys with
  | nil =>
    show [0] = [levenshtein Levenshtein.defaultCost ([] : List Char) []]
    simp
  | cons y yt ih =>
    show (yt.length + 1) :: levInitRow yt =
      levenshtein Levenshtein.defaultCost [] (y :: yt) :: levSpecRow [] yt
    rw [ih, lev_nil_eq_length, List.length_cons]

theorem levRowStep_eq (x : Char) (s : List Char) : ∀ ys : List Char,
    levRowStep x ys (levSpecRow s ys) = levSpecRow (x :: s) ys := by
  intro ys
  induction ys with
  | nil =>
    show [1 + (levSpecRow s []).headD 0] =
      [levenshtein Levenshtein.defaultCost (x :: s) []]
    rw [levSpecRow_headD, ← lev_cons_nil_succ]
  | cons y yt ih =>
    show (min (1 + levenshtein Levenshtein.defaultCost s (y :: yt))
        (min (1 + (levRowStep x yt (levSpecRow s yt)).headD 0)
          ((if x = y then 0 else 1) + (levSpecRow s yt).headD 0))) ::
        levRowStep x yt (levSpecRow s yt) =
      levenshtein Levenshtein.defaultCost (x :: s) (y :: yt) :: levSpecRow (x :: s) yt
    rw [ih, levSpecRow_headD, levSpecRow_headD, levenshtein_cons_cons]
    simp only [Levenshtein.defaultCost_delete, Levenshtein.defaultCost_insert,
      Levenshtein.defaultCost_substitute]

theorem levFold_eq (ys : List Char) : ∀ xs : List Char,
    xs.foldr (fun x r => levRowStep x ys r) (levInitRow ys) = levSpecRow xs ys := by
  intro xs
  induction xs with
  | nil => exact levInitRow_eq ys
  | cons x xt ih =>
    rw [List.foldr_cons, ih, levRowStep_eq]

theorem levDP_eq (xs ys : List Char) :
    levDP xs ys = levenshtein Levenshtein.defaultCost xs ys := by
  unfold levDP
  rw [levFold_eq ys xs, levSpecRow_headD]

/-- Levenshtein edit distance between two strings (unit cost), computed
by the quadratic dynamic programme. -/
def levDist (a b : String) : ℕ := levDP a.data b.data

theorem levDist_eq (a b : String) :
    levDist a b = levenshtein Levenshtein.defaultCost a.data b.data :=
  levDP_eq a.data b.data

/-- The `(distance, maxlen)` score pair of a candidate, normalized so the
denominator is always positive (two empty strings score `(0,1)`, i.e.
similarity 1). -/
def simPair (a b : String) : ℕ × ℕ :=
  if max a.length b.length = 0 then (0, 1)
  else (levDist a b, max a.length b.length)

/-- `litholog_similarity` from `litholog.h`: normalized edit distance in `[0,1]`. -/
def litholog_similarity (a b : String) : ℚ :=
  1 - ((simPair a b).1 : ℚ) / ((simPair a b).2 : ℚ)

/-- Scan tail of the candidate loop: a later option replaces the current
best only when strictly better (`new.d/new.m < cur.d/cur.m`, exactly, by
cross-multiplication), so ties are broken by first occurrence. -/
def bestGo (t : String) (cur : String × ℕ × ℕ) : List String → String × ℕ × ℕ
  | [] => cur
  | o :: rest =>
    let q := simPair t o
    bestGo t (if q.1 * cur.2.2 < cur.2.1 * q.2 then (o, q) else cur) rest

/-- The best-scoring option together with its score pair. -/
def bestCand (t : String) (options : List String) : Option (String × ℕ × ℕ) :=
  match options with
  | [] => none
  | o :: rest => some (bestGo t (o, simPair t o) rest)

/-- `litholog_fuzzy_match` from `litholog.h`: best option by similarity,
none when the best similarity is below the threshold. -/
def litholog_fuzzy_match (target : String) (options : List String)
    (threshold : ℚ) : Option String :=
  match bestCand target options with
  | none => none
  | some (o, d, m) => if 1 - (d : ℚ) / (m : ℚ) < threshold then none else some o

/-- The matcher's default-threshold acceptance test: similarity at least
`4/5`, expressed exactly on the score pair (`5·d ≤ m ↔ 1 - d/m ≥ 4/5`). -/
def fuzzyAccept (d m : ℕ) : Bool := 5 * d ≤ m

/-- `fuzzy_match` at the matcher's default threshold `4/5`, with the
threshold test carried out exactly on the score pair so that the whole
computation stays in `ℕ`.  `fuzzyMatchDefault_eq` proves it equal to
`litholog_fuzzy_match` at threshold `4/5`. -/
def fuzzyMatchDefault (t : String) (options : List String) : Option String :=
  match bestCand t options with
  | none => none
  | some (o, d, m) => if fuzzyAccept d m then some o else none

/-! ## Vocabulary matcher

Modelled from the spec (§4.4): exact lookup of each unit, fuzzy
fallback through `fuzzy_match` at the default threshold; branch
inference by material keyword, else by comparing the two branches'
aggregate best-match scores with a tie defaulting to Soil.  Units
immediately preceded by a qualifier marker are secondary-constituent
evidence (§4.6) and are excluded from branch scoring. -/

/-- Exact ontology lookup of a unit in one category table. -/
def lookupPhrase (tbl : List (String × Int)) (u : String) : Option Int :=
  (tbl.find? (fun e => e.1 == u)).map (fun e => e.2)

/-- Resolve one unit against one category: exact match (confidence 1),
else fuzzy match at the default threshold (confidence = the similarity). -/
def resolveUnit (tbl : List (String × Int)) (u : String) : Option (Int × ℚ) :=
  match lookupPhrase tbl u with
  | some v => some (v, 1)
  | none =>
    match fuzzyMatchDefault u (tbl.map (fun e => e.1)) with
    | some key =>
      match lookupPhrase tbl key with
      | some v => some (v, litholog_similarity u key)
      | none => none
    | none => none

/-- Resolve a category over the unit stream: the first unit that
resolves wins; also returns the resolving unit (for the ambiguity test). -/
def resolveCatU (tbl : List (String × Int)) (units : List String) :
    Option (String × Int × ℚ) :=
  units.findSome? (fun u => (resolveUnit tbl u).map (fun vc => (u, vc.1, vc.2)))

/-- Exact-fraction score of a unit in one category: 1 for an exact
match, the similarity for an accepted fuzzy match, else 0; carried as a
`(numerator, denominator)` pair of naturals. -/
def catScoreFrac (tbl : List (String × Int)) (u : String) : ℕ × ℕ :=
  match lookupPhrase tbl u with
  | some _ => (1, 1)
  | none =>
    match bestCand u (tbl.map (fun e => e.1)) with
    | some (_, d, m) => if fuzzyAccept d m then (m - d, m) else (0, 1)
    | none => (0, 1)

/-- Exact comparison of two fraction pairs (`a/b < c/d` by cross-multiplication). -/
def fracLt (x y : ℕ × ℕ) : Bool := x.1 * y.2 < y.1 * x.2

/-- Exact addition of two fraction pairs. -/
def fracAdd (x y : ℕ × ℕ) : ℕ × ℕ := (x.1 * y.2 + y.1 * x.2, x.2 * y.2)

/-- The best category score of one unit within one branch's tables. -/
def unitBranchScore (tbls : List (List (String × Int))) (u : String) : ℕ × ℕ :=
  tbls.foldl (fun acc tbl =>
    let s := catScoreFrac tbl u
    if fracLt acc s then s else acc) (0, 1)

def soilTables : List (List (String × Int)) :=
  [consistencyTable, densityTable, soilTypeTable]

def rockTables : List (List (String × Int)) :=
  [rockStrengthTable, weatheringTable, rockStructureTable, rockTypeTable]

/-- Whether the previous unit (if any) is a qualifier marker. -/
def prevIsMarker : Option String → Bool
  | some p => qualifierMarkers.contains p
  | none => false

/-- Left-to-right scan keeping the units whose immediate predecessor is
not a qualifier marker (`prev` is the predecessor of the head). -/
def unmarkedGo : Option String → List String → List String
  | _, [] => []
  | prev, u :: rest =>
    (if prevIsMarker prev then [] else [u]) ++ unmarkedGo (some u) rest

/-- The units that are not immediately preceded by a qualifier marker:
those are the branch-classification evidence; marker-qualified units are
secondary-constituent evidence. -/
def unmarkedUnits (units : List String) : List String :=
  unmarkedGo none units

/-- Aggregate best-match score of one branch over the unit stream. -/
def branchScore (tbls : List (List (String × Int))) (units : List String) : ℕ × ℕ :=
  (unmarkedUnits units).foldl (fun acc u => fracAdd acc (unitBranchScore tbls u)) (0, 1)

/-- Branch inference (spec §4.4): a material keyword fixes the branch;
otherwise the branch with the higher aggregate best-match score wins and
a true tie defaults to Soil. -/
def inferBranch (units : List String) : litholog_material_type_t :=
  match units.findSome? (fun u => lookupPhrase materialTable u) with
  | some v => if v = 0 then .SOIL else .ROCK
  | none =>
    if fracLt (branchScore soilTables units) (branchScore rockTables units)
    then .ROCK else .SOIL

/-! ## Confidence scorer

Modelled from the spec (§4.5): per-field confidence is the match
confidence, discounted by a fixed amount when the best candidates of two
categories for the resolving unit are within a small epsilon; the
aggregate is the weighted mean with weights primary (3) >
secondary-constituents (2) > strength-parameters (1); no resolved fields
yields aggregate 0. -/

def allCategoryTables : List (List (String × Int)) :=
  [consistencyTable, densityTable, soilTypeTable,
   rockStrengthTable, weatheringTable, rockStructureTable, rockTypeTable]

/-- Two exact-fraction scores within `1/20` of one another
(`|a/b - c/d| < 1/20`, by cross-multiplication). -/
def closeScore (x y : ℕ × ℕ) : Bool :=
  ((x.1 * y.2 : Int) - (y.1 * x.2 : Int)).natAbs * 20 < x.2 * y.2

/-- Ambiguity test for the unit that resolved a field in category `own`:
some other category's best candidate for the same unit scores within
epsilon of it. -/
def ambiguousUnit (own : List (String × Int)) (u : String) : Bool :=
  (allCategoryTables.filter (fun t => t ≠ own)).any
    (fun tbl => closeScore (catScoreFrac own u) (catScoreFrac tbl u))

/-- Fixed ambiguity discount on a field confidence, clamped at 0. -/
def discountConf (c : ℚ) : ℚ := max 0 (c - 1 / 10)

/-- Resolve a field in one category and attach its (possibly
ambiguity-discounted) confidence. -/
def fieldOf (tbl : List (String × Int)) (units : List String) : Option (Int × ℚ) :=
  match resolveCatU tbl units with
  | some (u, v, c) =>
    some (v, if ambiguousUnit tbl u then discountConf c else c)
  | none => none

/-- Weighted mean of `(weight, confidence)` pairs; 0 when nothing is resolved. -/
def aggregateConf (ws : List (ℚ × ℚ)) : ℚ :=
  if (ws.map (fun p => p.1)).sum = 0 then 0
  else (ws.map (fun p => p.1 * p.2)).sum / (ws.map (fun p => p.1)).sum

/-! ## Secondary constituent extractor

Modelled from the spec (§4.6): scan for a qualifier marker immediately
preceding a unit resolvable to a soil type; record the marker (its
normalized bucket is the canonical marker unit itself) and the canonical
soil-type phrase, in order of first appearance, one entry per distinct
soil type, never re-recording the primary soil type. -/

/-- Canonical display phrase of a soil type code. -/
def soilDisplay (code : Int) : String :=
  ((soilTypeTable.find? (fun e => e.2 == code)).map (fun e => e.1)).getD "unknown"

/-- The guard of one extractor scan step: the resolved soil type of the
second unit of an adjacent pair whose first unit is a qualifier marker. -/
def secGuard (pr : String × String) : Option (Int × ℚ) :=
  if qualifierMarkers.contains pr.1 then resolveUnit soilTypeTable pr.2 else none

/-- One scan step: record `(marker, soil type)` when the marker
immediately precedes a resolvable soil type that is neither the primary
classification nor already recorded.  Also carries each entry's match
confidence for the scorer. -/
def secondaryStep (primary : Option Int)
    (acc : List (litholog_secondary_constituent_t × ℚ))
    (pr : String × String) : List (litholog_secondary_constituent_t × ℚ) :=
  match secGuard pr with
  | some (v, c) =>
    if primary = some v then acc
    else if acc.any (fun e => e.1.soil_type == soilDisplay v) then acc
    else acc ++ [(⟨pr.1, soilDisplay v⟩, c)]
  | none => acc

/-- Extract the secondary constituents (with their confidences) from the
unit stream. -/
def extractSecondary (primary : Option Int) (units : List String) :
    List (litholog_secondary_constituent_t × ℚ) :=
  (units.zip units.tail).foldl (secondaryStep primary) []

/-! ## Strength parameter extractor

Modelled from the spec (§4.7): an explicit number (or number pair)
adjacent to a recognized parameter cue gives an exact range with
confidence 1; otherwise a resolved qualitative grade is mapped through
the qualitative→numeric table with the midpoint as typical value and a
materially lower confidence (1/2); otherwise absent. -/

/-- Parse a unit as a natural number (all digits). -/
def natOfToken (u : String) : Option ℕ :=
  if u.data ≠ [] ∧ u.data.all (fun c => c.isDigit) then
    some (u.data.foldl (fun n c => 10 * n + (c.toNat - 48)) 0)
  else none

/-- The number at index `i` of the unit stream, when present. -/
def numAt (units : List String) (i : ℕ) : Option ℕ :=
  (units.get? i).bind natOfToken

/-- Index and code of the first strength-parameter cue unit. -/
def findCue (units : List String) : Option (ℕ × Int) :=
  units.enum.findSome? (fun e => (lookupPhrase strengthCueTable e.2).map (fun k => (e.1, k)))

/-- First numeric unit at index `i`, `i+1` or `i+2`, with its index. -/
def firstNumFrom (units : List String) (i : ℕ) : Option (ℕ × ℕ) :=
  match numAt units i with
  | some n => some (i, n)
  | none =>
    match numAt units (i + 1) with
    | some n => some (i + 1, n)
    | none => (numAt units (i + 2)).map (fun n => (i + 2, n))

/-- Explicit numeric strength pattern: numbers adjacent to (immediately
before, or within three units after) the first cue unit. -/
def explicitStrength (units : List String) : Option (Int × ℕ × ℕ) :=
  match findCue units with
  | none => none
  | some (i, k) =>
    match (if 1 ≤ i then numAt units (i - 1) else none) with
    | some n1 =>
      match (if 2 ≤ i then numAt units (i - 2) else none) with
      | some n0 => some (k, n0, n1)
      | none => some (k, n1, n1)
    | none =>
      match firstNumFrom units (i + 1) with
      | some (j, n) =>
        match numAt units (j + 1) with
        | some m2 => some (k, n, m2)
        | none => some (k, n, n)
      | none => none

/-- Strength parameter kind from its `litholog.h` enum code. -/
def paramOfCode (k : Int) : litholog_strength_parameter_type_t :=
  if k = 0 then .UCS else if k = 1 then .UNDRAINED_SHEAR
  else if k = 2 then .SPT_N_VALUE else .FRICTION_ANGLE

/-- Build a strength-parameters component from a kind code, a range and
a confidence; the typical value is the midpoint (which is the given
value itself when lower = upper). -/
def mkStrength (k : Int) (l u : ℕ) (conf : ℚ) : litholog_strength_parameters_t :=
  { parameter_type := paramOfCode k
    value_range :=
      { lower_bound := (l : ℚ)
        upper_bound := (u : ℚ)
        typical_value := ((l : ℚ) + (u : ℚ)) / 2
        has_typical_value := 1 }
    confidence := conf }

/-- Qualitative table lookup by code. -/
def rangeOfCode (tbl : List (Int × ℕ × ℕ)) (code : Int) : Option (ℕ × ℕ) :=
  (tbl.find? (fun e => e.1 == code)).map (fun e => e.2)

/-- Derived strength parameters from a resolved qualitative grade. -/
def derivedStrength (mat : litholog_material_type_t)
    (consistency density rock_strength : Int) :
    Option litholog_strength_parameters_t :=
  match mat with
  | .SOIL =>
    match rangeOfCode consistencyShearTable consistency with
    | some lu => some (mkStrength 1 lu.1 lu.2 (1 / 2))
    | none =>
      match rangeOfCode densitySptTable density with
      | some lu => some (mkStrength 2 lu.1 lu.2 (1 / 2))
      | none => none
  | .ROCK =>
    match rangeOfCode rockUcsTable rock_strength with
    | some lu => some (mkStrength 0 lu.1 lu.2 (1 / 2))
    | none => none

/-- The strength-parameters component of a parse: explicit numeric
pattern first (confidence 1), else derived from the qualitative grade
(confidence 1/2), else absent. -/
def strengthOf (units : List String) (mat : litholog_material_type_t)
    (consistency density rock_strength : Int) :
    Option litholog_strength_parameters_t :=
  match explicitStrength units with
  | some kr => some (mkStrength kr.1 kr.2.1 kr.2.2 1)
  | none => derivedStrength mat consistency density rock_strength

/-! ## Parse -/

/-- The value of an optional field, `-1` (the header's "not set"
sentinel) when unresolved. -/
def fieldVal (f : Option (Int × ℚ)) : Int :=
  match f with
  | some vc => vc.1
  | none => -1

/-- The `(weight, confidence)` contribution of an optional field. -/
def fieldWC (w : ℚ) (f : Option (Int × ℚ)) : List (ℚ × ℚ) :=
  match f with
  | some vc => [(w, vc.2)]
  | none => []

/-- The primary soil classification of the unit stream: the resolved
primary soil type of a Soil-branch record; a Rock record's primary
classification is a rock type, never a soil type, so it never shadows a
secondary soil constituent. -/
def primarySoilOf (units : List String) (mat : litholog_material_type_t) : Option Int :=
  if mat = .SOIL then (fieldOf soilTypeTable units).map (fun vc => vc.1) else none

/-- The weighted confidence components of a parse, in assembly order:
the seven classification fields (weight 3), the secondary constituents
(weight 2), and the strength parameters (weight 1). -/
def wcsOf (s : String) : List (ℚ × ℚ) :=
  fieldWC 3 (if inferBranch (unitsOf s) = .SOIL
      then fieldOf consistencyTable (unitsOf s) else none) ++
  fieldWC 3 (if inferBranch (unitsOf s) = .SOIL
      then fieldOf densityTable (unitsOf s) else none) ++
  fieldWC 3 (if inferBranch (unitsOf s) = .SOIL
      then fieldOf soilTypeTable (unitsOf s) else none) ++
  fieldWC 3 (if inferBranch (unitsOf s) = .ROCK
      then fieldOf rockStrengthTable (unitsOf s) else none) ++
  fieldWC 3 (if inferBranch (unitsOf s) = .ROCK
      then fieldOf weatheringTable (unitsOf s) else none) ++
  fieldWC 3 (if inferBranch (unitsOf s) = .ROCK
      then fieldOf rockStructureTable (unitsOf s) else none) ++
  fieldWC 3 (if inferBranch (unitsOf s) = .ROCK
      then fieldOf rockTypeTable (unitsOf s) else none) ++
  (extractSecondary (primarySoilOf (unitsOf s) (inferBranch (unitsOf s)))
      (unitsOf s)).map (fun e => ((2 : ℚ), e.2)) ++
  (match strengthOf (unitsOf s) (inferBranch (unitsOf s))
      (fieldVal (if inferBranch (unitsOf s) = .SOIL
        then fieldOf consistencyTable (unitsOf s) else none))
      (fieldVal (if inferBranch (unitsOf s) = .SOIL
        then fieldOf densityTable (unitsOf s) else none))
      (fieldVal (if inferBranch (unitsOf s) = .ROCK
        then fieldOf rockStrengthTable (unitsOf s) else none)) with
    | some sp => [((1 : ℚ), sp.confidence)]
    | none => [])

/-- The record assembly of a successful parse: normalize, infer the
branch, resolve the branch's category fields, extract secondary
constituents and strength parameters, score confidence, and build the
complete record in one step. -/
def buildRecord (s : String) : litholog_soil_description_t :=
    let units := unitsOf s
    let mat := inferBranch units
    let consF := if mat = .SOIL then fieldOf consistencyTable units else none
    let densF := if mat = .SOIL then fieldOf densityTable units else none
    let soilF := if mat = .SOIL then fieldOf soilTypeTable units else none
    let rstrF := if mat = .ROCK then fieldOf rockStrengthTable units else none
    let weatF := if mat = .ROCK then fieldOf weatheringTable units else none
    let structF := if mat = .ROCK then fieldOf rockStructureTable units else none
    let rtypF := if mat = .ROCK then fieldOf rockTypeTable units else none
    let secs := extractSecondary (primarySoilOf units mat) units
    let strength := strengthOf units mat (fieldVal consF) (fieldVal densF) (fieldVal rstrF)
    { raw_description := s
      material_type := mat
      consistency := fieldVal consF
      density := fieldVal densF
      primary_soil_type := fieldVal soilF
      rock_strength := fieldVal rstrF
      weathering_grade := fieldVal weatF
      rock_structure := fieldVal structF
      primary_rock_type := fieldVal rtypF
      secondary_constituents := secs.map (fun e => e.1)
      secondary_constituents_count := (secs.length : Int)
      strength_parameters := strength
      has_strength_parameters := (match strength with | some _ => 1 | none => 0)
      confidence := aggregateConf (wcsOf s) }

/-- `litholog_parse` from `litholog.h`, modelled from the spec: fails
(returns no record, C `NULL`) exactly on empty or whitespace-only input;
otherwise returns the completely assembled record — the record is built
atomically, so no partially constructed record is ever observable. -/
def litholog_parse (s : String) : Option litholog_soil_description_t :=
  if s.data.all (fun c => c.isWhitespace) then none
  else some (buildRecord s)

/-! ## Description generator

Modelled from the spec (§4.8): deterministic assembly from the record
and the ontology's reverse mapping, in fixed order; full text appends
"with" and the comma-joined secondary constituents; concise text is the
primary classification word plus the primary type noun only.  Generation
fails exactly when the branch's primary-type field is not set. -/

/-- Reverse ontology lookup: display phrase of a category code. -/
def displayOf (tbl : List (String × Int)) (code : Int) : String :=
  ((tbl.find? (fun e => e.2 == code)).map (fun e => e.1)).getD "unknown"

/-- The display phrase of an optional `int`-coded field (`< 0` = unset),
as a zero-or-one element piece list. -/
def pieceOf (tbl : List (String × Int)) (code : Int) : List String :=
  if code < 0 then [] else [displayOf tbl code]

/-- The word pieces of the secondary-constituent clause: "with" followed
by the comma-joined `amount soil_type` items (the comma attaches to the
preceding item, as in "sand, trace of silt"). -/
def secPieces (secs : List litholog_secondary_constituent_t) : List String :=
  match secs with
  | [] => []
  | _ =>
    "with" ::
      (secs.map (fun c => c.amount ++ " " ++ c.soil_type)).intersperse ","

/-- Join pieces with single spaces into one character list. -/
def joinPieces (ps : List String) : List Char :=
  match ps with
  | [] => []
  | [p] => p.data
  | p :: rest => p.data ++ ' ' :: joinPieces rest

/-- The ordered pieces of the full description of a record. -/
def fullPieces (r : litholog_soil_description_t) : List String :=
  match r.material_type with
  | .SOIL =>
    pieceOf consistencyTable r.consistency ++ pieceOf densityTable r.density ++
    [displayOf soilTypeTable r.primary_soil_type] ++
    secPieces r.secondary_constituents
  | .ROCK =>
    pieceOf rockStrengthTable r.rock_strength ++
    [displayOf rockTypeTable r.primary_rock_type] ++
    pieceOf weatheringTable r.weathering_grade ++
    pieceOf rockStructureTable r.rock_structure ++
    secPieces r.secondary_constituents

/-- `litholog_generate_description` from `litholog.h`: the full
description, or none (C `NULL`) when the branch's primary type is unset. -/
def litholog_generate_description (r : litholog_soil_description_t) : Option String :=
  match r.material_type with
  | .SOIL =>
    if r.primary_soil_type < 0 then none
    else some (String.mk (joinPieces (fullPieces r)))
  | .ROCK =>
    if r.primary_rock_type < 0 then none
    else some (String.mk (joinPieces (fullPieces r)))

/-- The ordered pieces of the concise description of a record. -/
def concisePieces (r : litholog_soil_description_t) : List String :=
  match r.material_type with
  | .SOIL =>
    (if 0 ≤ r.consistency then pieceOf consistencyTable r.consistency
     else pieceOf densityTable r.density) ++
    [displayOf soilTypeTable r.primary_soil_type]
  | .ROCK =>
    pieceOf rockStrengthTable r.rock_strength ++
    [displayOf rockTypeTable r.primary_rock_type]

/-- `litholog_generate_concise` from `litholog.h`: primary
classification word plus primary type noun, or none when the branch's
primary type is unset. -/
def litholog_generate_concise (r : litholog_soil_description_t) : Option String :=
  match r.material_type with
  | .SOIL =>
    if r.primary_soil_type < 0 then none
    else some (String.mk (joinPieces (concisePieces r)))
  | .ROCK =>
    if r.primary_rock_type < 0 then none
    else some (String.mk (joinPieces (concisePieces r)))

/-! ## Basic facts about the similarity engine -/

theorem lev_self {α : Type} [DecidableEq α] (xs : List α) :
    levenshtein Levenshtein.defaultCost xs xs = 0 := by
  induction xs with
  | nil => simp
  | cons x xs ih =>
    rw [levenshtein_cons_cons]
    simp [ih]

theorem lev_le_max {α : Type} [DecidableEq α] (xs ys : List α) :
    levenshtein Levenshtein.defaultCost xs ys ≤ max xs.length ys.length := by
  induction xs generalizing ys with
  | nil =>
    induction ys with
    | nil => simp
    | cons y ys ihy =>
      rw [levenshtein_nil_cons]
      simp only [Levenshtein.defaultCost_insert] at *
      simp only [List.length_nil, List.length_cons] at *
      omega
  | cons x xs ihx =>
    cases ys with
    | nil =>
      rw [levenshtein_cons_nil]
      have h := ihx []
      simp only [Levenshtein.defaultCost_delete, List.length_nil, List.length_cons] at *
      omega
    | cons y ys =>
      rw [levenshtein_cons_cons]
      have h1 := ihx ys
      have h2 : (Levenshtein.defaultCost.substitute x y) ≤ 1 := by
        simp only [Levenshtein.defaultCost_substitute]
        split <;> omega
      simp only [List.length_cons] at *
      omega

theorem simPair_den_pos (a b : String) : 0 < (simPair a b).2 := by
  unfold simPair
  split
  · omega
  · next h => simpa using Nat.pos_of_ne_zero h

theorem simPair_num_le (a b : String) : (simPair a b).1 ≤ (simPair a b).2 := by
  unfold simPair
  split
  · omega
  · show levDist a b ≤ max a.length b.length
    rw [levDist_eq]
    exact lev_le_max a.data b.data

theorem one_sub_ratio_nonneg {d m : ℕ} (hd : d ≤ m) (hm : 0 < m) :
    (0 : ℚ) ≤ 1 - (d : ℚ) / (m : ℚ) := by
  have hm' : (0 : ℚ) < (m : ℚ) := by exact_mod_cast hm
  have : (d : ℚ) / (m : ℚ) ≤ 1 := by
    rw [div_le_one hm']
    exact_mod_cast hd
  linarith

theorem one_sub_ratio_le_one {d m : ℕ} (hm : 0 < m) :
    1 - (d : ℚ) / (m : ℚ) ≤ 1 := by
  have hm' : (0 : ℚ) < (m : ℚ) := by exact_mod_cast hm
  have : (0 : ℚ) ≤ (d : ℚ) / (m : ℚ) := by positivity
  linarith

theorem similarity_nonneg (a b : String) : 0 ≤ litholog_similarity a b :=
  one_sub_ratio_nonneg (simPair_num_le a b) (simPair_den_pos a b)

theorem similarity_le_one (a b : String) : litholog_similarity a b ≤ 1 :=
  one_sub_ratio_le_one (simPair_den_pos a b)

/-- C7: for every string `s`, including the empty string,
`litholog_similarity s s = 1`. -/
theorem similarity_self (s : String) : litholog_similarity s s = 1 := by
  unfold litholog_similarity simPair
  split
  · norm_num
  · simp [levDist_eq, lev_self]

/-! ## Parse failure condition and record assembly facts -/

theorem parse_record_eq (s : String) (r : litholog_soil_description_t)
    (h : litholog_parse s = some r) : r = buildRecord s := by
  unfold litholog_parse at h
  split at h
  · exact absurd h (by simp)
  · exact (Option.some.inj h).symm

theorem buildRecord_confidence (s : String) :
    (buildRecord s).confidence = aggregateConf (wcsOf s) := by
  simp only [buildRecord]

theorem buildRecord_strength (s : String) :
    (buildRecord s).strength_parameters =
      strengthOf (unitsOf s) (inferBranch (unitsOf s))
        (fieldVal (if inferBranch (unitsOf s) = .SOIL
          then fieldOf consistencyTable (unitsOf s) else none))
        (fieldVal (if inferBranch (unitsOf s) = .SOIL
          then fieldOf densityTable (unitsOf s) else none))
        (fieldVal (if inferBranch (unitsOf s) = .ROCK
          then fieldOf rockStrengthTable (unitsOf s) else none)) := by
  simp only [buildRecord]

/-- C2: `litholog_parse` fails (no record) exactly when the input is
empty or whitespace-only; every other input yields a complete record,
and (the parse being a single atomic assembly returning `Option`) no
partially constructed record is observable. -/
theorem parse_none_iff_whitespace (s : String) :
    litholog_parse s = none ↔ ∀ c ∈ s.data, c.isWhitespace := by
  unfold litholog_parse
  by_cases h : s.data.all (fun c => c.isWhitespace)
  · rw [if_pos h]
    rw [List.all_eq_true] at h
    simpa using h
  · rw [if_neg h]
    rw [List.all_eq_true] at h
    simpa using h

/-- C3: both generators fail (return none, never a malformed string)
exactly when the record's material branch has no primary-type field set;
for every record whose branch's primary type is set they both succeed. -/
theorem generate_none_iff_no_primary (r : litholog_soil_description_t) :
    (litholog_generate_description r = none ↔
      (r.material_type = .SOIL ∧ r.primary_soil_type < 0) ∨
      (r.material_type = .ROCK ∧ r.primary_rock_type < 0)) ∧
    (litholog_generate_concise r = none ↔
      (r.material_type = .SOIL ∧ r.primary_soil_type < 0) ∨
      (r.material_type = .ROCK ∧ r.primary_rock_type < 0)) := by
  unfold litholog_generate_description litholog_generate_concise
  cases hm : r.material_type
  · by_cases hp : r.primary_soil_type < 0 <;> simp [hm, hp]
  · by_cases hp : r.primary_rock_type < 0 <;> simp [hm, hp]

/-- C4: in every parsed record the soil and rock field groups are
mutually exclusive: a Soil record has all rock fields unset (`< 0`) and
a Rock record has all soil fields unset. -/
theorem parse_branch_exclusive (s : String) (r : litholog_soil_description_t)
    (h : litholog_parse s = some r) :
    (r.material_type = .SOIL →
      r.rock_strength < 0 ∧ r.weathering_grade < 0 ∧
      r.rock_structure < 0 ∧ r.primary_rock_type < 0) ∧
    (r.material_type = .ROCK →
      r.consistency < 0 ∧ r.density < 0 ∧ r.primary_soil_type < 0) := by
  rw [parse_record_eq s r h]
  cases hb : inferBranch (unitsOf s) <;>
    simp [buildRecord, hb, fieldVal]

/-- The flag and the pointer encoding of strength parameters are built
from the same value. -/
theorem buildRecord_strength_flag (s : String) :
    (buildRecord s).has_strength_parameters =
      (match (buildRecord s).strength_parameters with
       | some _ => 1 | none => 0) := rfl

/-- C9: in every parsed record the two encodings of the optional
strength-parameters component agree: the flag is nonzero iff the
pointer is non-null. -/
theorem parse_strength_encoding_agrees (s : String) (r : litholog_soil_description_t)
    (h : litholog_parse s = some r) :
    (r.has_strength_parameters ≠ 0 ↔ r.strength_parameters ≠ none) := by
  rw [parse_record_eq s r h, buildRecord_strength_flag]
  cases (buildRecord s).strength_parameters <;> simp

/-- The count field is built as the length of the constituent list. -/
theorem buildRecord_count (s : String) :
    (buildRecord s).secondary_constituents_count =
      ((buildRecord s).secondary_constituents.length : Int) := by
  simp [buildRecord]

/-- C10: in every parsed record `secondary_constituents_count` is
non-negative and equals the number of entries of the constituent
sequence; a zero count means the sequence is empty. -/
theorem parse_count_faithful (s : String) (r : litholog_soil_description_t)
    (h : litholog_parse s = some r) :
    0 ≤ r.secondary_constituents_count ∧
    r.secondary_constituents_count = (r.secondary_constituents.length : Int) ∧
    (r.secondary_constituents_count = 0 → r.secondary_constituents = []) := by
  rw [parse_record_eq s r h]
  refine ⟨?_, buildRecord_count s, ?_⟩
  · rw [buildRecord_count]; positivity
  · intro h0
    rw [buildRecord_count] at h0
    have : (buildRecord s).secondary_constituents.length = 0 := by exact_mod_cast h0
    exact List.length_eq_zero.mp this

theorem parse_stiff_clay_isSome :
    (litholog_parse "stiff clay with some sand").isSome = true := by decide

theorem parse_firm_clay_isSome :
    (litholog_parse "firm clay").isSome = true := by decide

theorem parse_sandstone_isSome :
    (litholog_parse "strong sandstone").isSome = true := by decide

/-- Witness for C4 at a concrete input. -/
theorem parse_branch_exclusive_witness :
    ∃ r, litholog_parse "stiff clay with some sand" = some r ∧
      ((r.material_type = .SOIL →
        r.rock_strength < 0 ∧ r.weathering_grade < 0 ∧
        r.rock_structure < 0 ∧ r.primary_rock_type < 0) ∧
       (r.material_type = .ROCK →
        r.consistency < 0 ∧ r.density < 0 ∧ r.primary_soil_type < 0)) :=
  ⟨(litholog_parse "stiff clay with some sand").get parse_stiff_clay_isSome,
    (Option.some_get parse_stiff_clay_isSome).symm,
    parse_branch_exclusive _ _ (Option.some_get parse_stiff_clay_isSome).symm⟩

/-- Witness for C9 at a concrete input. -/
theorem parse_strength_encoding_agrees_witness :
    ∃ r, litholog_parse "firm clay" = some r ∧
      (r.has_strength_parameters ≠ 0 ↔ r.strength_parameters ≠ none) :=
  ⟨(litholog_parse "firm clay").get parse_firm_clay_isSome,
    (Option.some_get parse_firm_clay_isSome).symm,
    parse_strength_encoding_agrees _ _ (Option.some_get parse_firm_clay_isSome).symm⟩

/-- Witness for C10 at a concrete input. -/
theorem parse_count_faithful_witness :
    ∃ r, litholog_parse "strong sandstone" = some r ∧
      (0 ≤ r.secondary_constituents_count ∧
       r.secondary_constituents_count = (r.secondary_constituents.length : Int) ∧
       (r.secondary_constituents_count = 0 → r.secondary_constituents = [])) :=
  ⟨(litholog_parse "strong sandstone").get parse_sandstone_isSome,
    (Option.some_get parse_sandstone_isSome).symm,
    parse_count_faithful _ _ (Option.some_get parse_sandstone_isSome).symm⟩

/-! ## Fuzzy match: best-candidate loop specification -/

theorem cross_lt_iff (d1 m1 d2 m2 : ℕ) (h1 : 0 < m1) (h2 : 0 < m2) :
    (d2 * m1 < d1 * m2) ↔ (1 - (d1 : ℚ) / m1 < 1 - (d2 : ℚ) / m2) := by
  have h1' : (0 : ℚ) < m1 := by exact_mod_cast h1
  have h2' : (0 : ℚ) < m2 := by exact_mod_cast h2
  rw [sub_lt_sub_iff_left, div_lt_div_iff h2' h1']
  exact_mod_cast Iff.rfl

theorem simLt_of_test (t : String) (cur : String × ℕ × ℕ) (o : String)
    (h : cur.2 = simPair t cur.1) :
    ((simPair t o).1 * cur.2.2 < cur.2.1 * (simPair t o).2 ↔
      litholog_similarity t cur.1 < litholog_similarity t o) := by
  rw [h]
  unfold litholog_similarity
  exact cross_lt_iff (simPair t cur.1).1 (simPair t cur.1).2
    (simPair t o).1 (simPair t o).2 (simPair_den_pos t cur.1) (simPair_den_pos t o)

theorem bestGo_spec (t : String) (opts : List String) :
    ∀ cur : String × ℕ × ℕ, cur.2 = simPair t cur.1 →
      (bestGo t cur opts).2 = simPair t (bestGo t cur opts).1 ∧
      litholog_similarity t cur.1 ≤ litholog_similarity t (bestGo t cur opts).1 ∧
      (∀ o ∈ opts, litholog_similarity t o ≤ litholog_similarity t (bestGo t cur opts).1) ∧
      (bestGo t cur opts = cur ∨
        ∃ l1 l2, opts = l1 ++ (bestGo t cur opts).1 :: l2 ∧
          litholog_similarity t cur.1 < litholog_similarity t (bestGo t cur opts).1 ∧
          ∀ o ∈ l1, litholog_similarity t o < litholog_similarity t (bestGo t cur opts).1) := by
  induction opts with
  | nil =>
    intro cur h
    exact ⟨h, le_refl _, by simp, Or.inl rfl⟩
  | cons o rest ih =>
    intro cur h
    simp only [bestGo]
    by_cases hc : (simPair t o).1 * cur.2.2 < cur.2.1 * (simPair t o).2
    · rw [if_pos hc]
      have hlt : litholog_similarity t cur.1 < litholog_similarity t o :=
        (simLt_of_test t cur o h).mp hc
      obtain ⟨p1, p2, p3, p4⟩ := ih (o, simPair t o) rfl
      refine ⟨p1, le_of_lt (lt_of_lt_of_le hlt p2), ?_, ?_⟩
      · intro o2 hm
        rcases List.mem_cons.mp hm with h2 | h2
        · rw [h2]; exact p2
        · exact p3 o2 h2
      · rcases p4 with hcur | ⟨l1, l2, heq, hsc, hl1⟩
        · refine Or.inr ⟨[], rest, ?_, ?_, by simp⟩
          · rw [hcur]; rfl
          · rw [hcur]; exact hlt
        · refine Or.inr ⟨o :: l1, l2, ?_, lt_trans hlt hsc, ?_⟩
          · rw [List.cons_append]; exact congrArg (List.cons o) heq
          · intro o2 hm
            rcases List.mem_cons.mp hm with h2 | h2
            · rw [h2]; exact hsc
            · exact hl1 o2 h2
    · rw [if_neg hc]
      have hle : litholog_similarity t o ≤ litholog_similarity t cur.1 :=
        not_lt.mp (fun hlt => hc ((simLt_of_test t cur o h).mpr hlt))
      obtain ⟨p1, p2, p3, p4⟩ := ih cur h
      refine ⟨p1, p2, ?_, ?_⟩
      · intro o2 hm
        rcases List.mem_cons.mp hm with h2 | h2
        · rw [h2]; exact le_trans hle p2
        · exact p3 o2 h2
      · rcases p4 with hcur | ⟨l1, l2, heq, hsc, hl1⟩
        · exact Or.inl hcur
        · refine Or.inr ⟨o :: l1, l2, ?_, hsc, ?_⟩
          · rw [List.cons_append]; exact congrArg (List.cons o) heq
          · intro o2 hm
            rcases List.mem_cons.mp hm with h2 | h2
            · rw [h2]; exact lt_of_le_of_lt hle hsc
            · exact hl1 o2 h2

theorem bestCand_none_iff (t : String) (opts : List String) :
    bestCand t opts = none ↔ opts = [] := by
  cases opts <;> simp [bestCand]

theorem bestCand_spec (t : String) (opts : List String) (o : String) (d m : ℕ)
    (h : bestCand t opts = some (o, d, m)) :
    (d, m) = simPair t o ∧
    (∀ o2 ∈ opts, litholog_similarity t o2 ≤ litholog_similarity t o) ∧
    ∃ l1 l2, opts = l1 ++ o :: l2 ∧
      ∀ o2 ∈ l1, litholog_similarity t o2 < litholog_similarity t o := by
  cases opts with
  | nil => simp [bestCand] at h
  | cons o0 rest =>
    simp only [bestCand] at h
    have hg : bestGo t (o0, simPair t o0) rest = (o, d, m) := Option.some.inj h
    obtain ⟨p1, p2, p3, p4⟩ := bestGo_spec t rest (o0, simPair t o0) rfl
    rw [hg] at p1 p2 p3 p4
    refine ⟨p1.symm ▸ p1, ?_, ?_⟩
    · intro o2 hm
      rcases List.mem_cons.mp hm with h2 | h2
      · rw [h2]; exact p2
      · exact p3 o2 h2
    · rcases p4 with hcur | ⟨l1, l2, heq, hsc, hl1⟩
      · have ho : o = o0 := congrArg Prod.fst hcur
        refine ⟨[], rest, ?_, by simp⟩
        rw [ho]; rfl
      · refine ⟨o0 :: l1, l2, ?_, ?_⟩
        · rw [heq]; rfl
        · intro o2 hm
          rcases List.mem_cons.mp hm with h2 | h2
          · rw [h2]; exact hsc
          · exact hl1 o2 h2

/-- C8: `litholog_fuzzy_match` returns none exactly when every option's
similarity to the target is below the threshold (i.e. when the best is);
with threshold 0 and a non-empty option list it always returns some
option; and a returned option is a best-scoring one with every
earlier-listed option scoring strictly less (ties resolved in favour of
the earliest option). -/
theorem fuzzy_match_spec (t : String) (options : List String) (θ : ℚ)
    (h : options ≠ []) :
    (litholog_fuzzy_match t options θ = none ↔
      ∀ o ∈ options, litholog_similarity t o < θ) ∧
    (litholog_fuzzy_match t options 0).isSome = true ∧
    (∀ o, litholog_fuzzy_match t options θ = some o →
      o ∈ options ∧
      (∀ o2 ∈ options, litholog_similarity t o2 ≤ litholog_similarity t o) ∧
      ∃ l1 l2, options = l1 ++ o :: l2 ∧
        ∀ o2 ∈ l1, litholog_similarity t o2 < litholog_similarity t o) := by
  match hb : bestCand t options with
  | none => exact absurd ((bestCand_none_iff t options).mp hb) h
  | some (b, d, m) =>
    obtain ⟨hdm, hub, l1, l2, heq, hstr⟩ := bestCand_spec t options b d m hb
    have hsim : 1 - (d : ℚ) / m = litholog_similarity t b := by
      unfold litholog_similarity
      rw [← hdm]
    have hmem : b ∈ options := by rw [heq]; exact List.mem_append_right _ (List.mem_cons_self _ _)
    have hfm : ∀ θ2 : ℚ, litholog_fuzzy_match t options θ2 =
        if 1 - (d : ℚ) / m < θ2 then none else some b := by
      intro θ2
      unfold litholog_fuzzy_match
      rw [hb]
    refine ⟨?_, ?_, ?_⟩
    · rw [hfm θ]
      by_cases hth : 1 - (d : ℚ) / m < θ
      · rw [if_pos hth]
        simp only [true_iff]
        intro o ho
        exact lt_of_le_of_lt (hub o ho) (hsim ▸ hth)
      · rw [if_neg hth]
        refine iff_of_false (by simp) (fun hall => hth ?_)
        rw [hsim]
        exact hall b hmem
    · rw [hfm 0]
      rw [if_neg (not_lt.mpr (hsim ▸ similarity_nonneg t b))]
      rfl
    · intro o ho
      rw [hfm θ] at ho
      split at ho
      · exact absurd ho (by simp)
      · have hbo : b = o := Option.some.inj ho
        subst hbo
        exact ⟨hmem, hub, l1, l2, heq, hstr⟩

/-- Witness for C8 at a concrete input: the spec scenario target and
options, with a non-empty option list. -/
theorem fuzzy_match_spec_witness :
    (litholog_fuzzy_match "stif" ["soft", "stiff", "hard"] 0).isSome = true :=
  (fuzzy_match_spec "stif" ["soft", "stiff", "hard"] (3 / 5) (by simp)).2.1

/-! ## Confidence bounds -/

theorem resolveUnit_conf_bounds (tbl : List (String × Int)) (u : String) (v : Int) (c : ℚ)
    (h : resolveUnit tbl u = some (v, c)) : 0 ≤ c ∧ c ≤ 1 := by
  unfold resolveUnit at h
  split at h
  · simp only [Option.some.injEq, Prod.mk.injEq] at h
    obtain ⟨_, h2⟩ := h
    subst h2
    norm_num
  · split at h
    · split at h
      · simp only [Option.some.injEq, Prod.mk.injEq] at h
        obtain ⟨_, h2⟩ := h
        subst h2
        exact ⟨similarity_nonneg _ _, similarity_le_one _ _⟩
      · exact Option.noConfusion h
    · exact Option.noConfusion h

theorem resolveCatU_resolves (tbl : List (String × Int)) (units : List String)
    (u : String) (v : Int) (c : ℚ) (h : resolveCatU tbl units = some (u, v, c)) :
    u ∈ units ∧ resolveUnit tbl u = some (v, c) := by
  obtain ⟨a, ha, hfa⟩ := List.exists_of_findSome?_eq_some h
  match hru : resolveUnit tbl a with
  | none => rw [hru] at hfa; exact Option.noConfusion hfa
  | some vc =>
    rw [hru] at hfa
    simp only [Option.map_some', Option.some.injEq, Prod.mk.injEq] at hfa
    obtain ⟨h1, h2, h3⟩ := hfa
    subst h1
    refine ⟨ha, ?_⟩
    rw [hru]
    rw [← h2, ← h3]

theorem discountConf_bounds (c : ℚ) (h0 : 0 ≤ c) (h1 : c ≤ 1) :
    0 ≤ discountConf c ∧ discountConf c ≤ 1 := by
  unfold discountConf
  constructor
  · exact le_max_left 0 _
  · apply max_le (by norm_num)
    linarith

theorem fieldOf_conf_bounds (tbl : List (String × Int)) (units : List String)
    (vc : Int × ℚ) (h : fieldOf tbl units = some vc) : 0 ≤ vc.2 ∧ vc.2 ≤ 1 := by
  unfold fieldOf at h
  split at h
  · next u v c hrc =>
    obtain ⟨_, hru⟩ := resolveCatU_resolves tbl units u v c hrc
    obtain ⟨h0, h1⟩ := resolveUnit_conf_bounds tbl u v c hru
    simp only [Option.some.injEq] at h
    subst h
    dsimp only
    split
    · exact discountConf_bounds c h0 h1
    · exact ⟨h0, h1⟩
  · exact Option.noConfusion h

theorem secGuard_conf_bounds (pr : String × String) (v : Int) (c : ℚ)
    (h : secGuard pr = some (v, c)) : 0 ≤ c ∧ c ≤ 1 := by
  unfold secGuard at h
  split at h
  · exact resolveUnit_conf_bounds _ _ _ _ h
  · exact Option.noConfusion h

theorem secondary_fold_conf_bounds (primary : Option Int) (prs : List (String × String)) :
    ∀ acc : List (litholog_secondary_constituent_t × ℚ),
      (∀ e ∈ acc, 0 ≤ e.2 ∧ e.2 ≤ 1) →
      ∀ e ∈ prs.foldl (secondaryStep primary) acc, 0 ≤ e.2 ∧ e.2 ≤ 1 := by
  induction prs with
  | nil => intro acc hacc; exact hacc
  | cons pr rest ih =>
    intro acc hacc
    rw [List.foldl_cons]
    apply ih
    intro e he
    unfold secondaryStep at he
    split at he
    · next v c heq =>
      split at he
      · exact hacc e he
      · split at he
        · exact hacc e he
        · rcases List.mem_append.mp he with h2 | h2
          · exact hacc e h2
          · have h3 : e = (⟨pr.1, soilDisplay v⟩, c) := List.mem_singleton.mp h2
            subst h3
            exact secGuard_conf_bounds pr v c heq
    · exact hacc e he

theorem extractSecondary_conf_bounds (primary : Option Int) (units : List String) :
    ∀ e ∈ extractSecondary primary units, 0 ≤ e.2 ∧ e.2 ≤ 1 := by
  unfold extractSecondary
  exact secondary_fold_conf_bounds primary _ [] (by simp)

theorem mkStrength_confidence (k : Int) (l u : ℕ) (conf : ℚ) :
    (mkStrength k l u conf).confidence = conf := rfl

theorem strengthOf_conf_bounds (units : List String) (mat : litholog_material_type_t)
    (a b c : Int) (sp : litholog_strength_parameters_t)
    (h : strengthOf units mat a b c = some sp) :
    0 ≤ sp.confidence ∧ sp.confidence ≤ 1 := by
  unfold strengthOf at h
  split at h
  · have : sp = mkStrength _ _ _ 1 := (Option.some.inj h).symm
    rw [this, mkStrength_confidence]
    norm_num
  · unfold derivedStrength at h
    cases mat with
    | SOIL =>
      cases h1 : rangeOfCode consistencyShearTable a with
      | some lu =>
        rw [h1] at h
        have hsp : sp = mkStrength 1 lu.1 lu.2 (1 / 2) := (Option.some.inj h).symm
        rw [hsp, mkStrength_confidence]
        norm_num
      | none =>
        rw [h1] at h
        cases h2 : rangeOfCode densitySptTable b with
        | some lu =>
          rw [h2] at h
          have hsp : sp = mkStrength 2 lu.1 lu.2 (1 / 2) := (Option.some.inj h).symm
          rw [hsp, mkStrength_confidence]
          norm_num
        | none =>
          rw [h2] at h
          exact Option.noConfusion h
    | ROCK =>
      cases h1 : rangeOfCode rockUcsTable c with
      | some lu =>
        rw [h1] at h
        have hsp : sp = mkStrength 0 lu.1 lu.2 (1 / 2) := (Option.some.inj h).symm
        rw [hsp, mkStrength_confidence]
        norm_num
      | none =>
        rw [h1] at h
        exact Option.noConfusion h

theorem aggregateConf_bounds (ws : List (ℚ × ℚ))
    (hb : ∀ p ∈ ws, 0 ≤ p.1 ∧ 0 ≤ p.2 ∧ p.2 ≤ 1) :
    0 ≤ aggregateConf ws ∧ aggregateConf ws ≤ 1 := by
  unfold aggregateConf
  split
  · norm_num
  · next htw =>
    have htw_nonneg : 0 ≤ (ws.map (fun p => p.1)).sum := by
      apply List.sum_nonneg
      intro x hx
      obtain ⟨p, hp, rfl⟩ := List.mem_map.mp hx
      exact (hb p hp).1
    have htw_pos : 0 < (ws.map (fun p => p.1)).sum :=
      lt_of_le_of_ne htw_nonneg (Ne.symm htw)
    have hnum_nonneg : 0 ≤ (ws.map (fun p => p.1 * p.2)).sum := by
      apply List.sum_nonneg
      intro x hx
      obtain ⟨p, hp, rfl⟩ := List.mem_map.mp hx
      exact mul_nonneg (hb p hp).1 (hb p hp).2.1
    have hnum_le : (ws.map (fun p => p.1 * p.2)).sum ≤ (ws.map (fun p => p.1)).sum := by
      apply List.sum_le_sum
      intro p hp
      exact mul_le_of_le_one_right (hb p hp).1 (hb p hp).2.2
    constructor
    · exact div_nonneg hnum_nonneg htw_nonneg
    · rw [div_le_one htw_pos]
      exact hnum_le

theorem fieldWC_opt_bounds (w : ℚ) (hw : 0 ≤ w) (tbl : List (String × Int))
    (units : List String) (cond : Prop) [Decidable cond] :
    ∀ p ∈ fieldWC w (if cond then fieldOf tbl units else none),
      0 ≤ p.1 ∧ 0 ≤ p.2 ∧ p.2 ≤ 1 := by
  intro p hp
  split at hp
  · unfold fieldWC at hp
    split at hp
    · next vc hvc =>
      have : p = (w, vc.2) := List.mem_singleton.mp hp
      subst this
      exact ⟨hw, fieldOf_conf_bounds tbl units vc hvc⟩
    · exact absurd hp (by simp)
  · exact absurd hp (by simp [fieldWC])

theorem parse_wcs_bounds (s : String) :
    ∀ p ∈ wcsOf s, 0 ≤ p.1 ∧ 0 ≤ p.2 ∧ p.2 ≤ 1 := by
  intro p hp
  unfold wcsOf at hp
  simp only [List.mem_append] at hp
  rcases hp with ((((((((h | h) | h) | h) | h) | h) | h) | h) | h)
  · exact fieldWC_opt_bounds 3 (by norm_num) _ _ _ p h
  · exact fieldWC_opt_bounds 3 (by norm_num) _ _ _ p h
  · exact fieldWC_opt_bounds 3 (by norm_num) _ _ _ p h
  · exact fieldWC_opt_bounds 3 (by norm_num) _ _ _ p h
  · exact fieldWC_opt_bounds 3 (by norm_num) _ _ _ p h
  · exact fieldWC_opt_bounds 3 (by norm_num) _ _ _ p h
  · exact fieldWC_opt_bounds 3 (by norm_num) _ _ _ p h
  · obtain ⟨e, he, rfl⟩ := List.mem_map.mp h
    have := extractSecondary_conf_bounds _ _ e he
    exact ⟨by norm_num, this.1, this.2⟩
  · revert h
    split
    · next sp hsp =>
      intro h
      have : p = (1, sp.confidence) := List.mem_singleton.mp h
      subst this
      have := strengthOf_conf_bounds _ _ _ _ _ sp hsp
      exact ⟨by norm_num, this.1, this.2⟩
    · intro h
      exact absurd h (by simp)

set_option maxHeartbeats 1000000 in
/-- C5: in every parsed record the aggregate confidence lies in `[0,1]`,
every per-field confidence (branch classification fields and secondary
constituent entries) lies in `[0,1]`, and so does the confidence carried
by the strength-parameters component when present. -/
theorem parse_confidences_in_unit_interval (s : String)
    (r : litholog_soil_description_t) (h : litholog_parse s = some r) :
    (0 ≤ r.confidence ∧ r.confidence ≤ 1) ∧
    (∀ sp, r.strength_parameters = some sp → 0 ≤ sp.confidence ∧ sp.confidence ≤ 1) ∧
    (∀ tbl vc, fieldOf tbl (unitsOf s) = some vc → 0 ≤ vc.2 ∧ vc.2 ≤ 1) ∧
    (∀ p e, e ∈ extractSecondary p (unitsOf s) → 0 ≤ e.2 ∧ e.2 ≤ 1) := by
  rw [parse_record_eq s r h]
  refine ⟨?_, ?_, ?_, ?_⟩
  · rw [buildRecord_confidence]
    exact aggregateConf_bounds _ (parse_wcs_bounds s)
  · intro sp hsp
    rw [buildRecord_strength] at hsp
    exact strengthOf_conf_bounds _ _ _ _ _ sp hsp
  · intro tbl vc hvc
    exact fieldOf_conf_bounds tbl _ vc hvc
  · intro p e he
    exact extractSecondary_conf_bounds p _ e he

/-- Witness for C5 at a concrete input. -/
theorem parse_confidences_in_unit_interval_witness :
    ∃ r, litholog_parse "stiff clay" = some r ∧
      (0 ≤ r.confidence ∧ r.confidence ≤ 1) := by
  have hs : (litholog_parse "stiff clay").isSome = true := by decide
  exact ⟨(litholog_parse "stiff clay").get hs,
    (Option.some_get hs).symm,
    (parse_confidences_in_unit_interval "stiff clay" _
      (Option.some_get hs).symm).1⟩

/-! ## Secondary constituents: order, distinctness, primary exclusion -/

/-- Specification-side view of the extractor scan (§4.6): the qualified
`(marker, soil-type code)` occurrences of the unit stream, in stream
order (the order of appearance in the source text). -/
def qualifiedOccurrences (units : List String) : List (String × Int) :=
  (units.zip units.tail).filterMap (fun pr => (secGuard pr).map (fun vc => (pr.1, vc.1)))

/-- One dedup step: keep an occurrence only if its soil type is neither
the primary classification nor already recorded. -/
def faStep (primary : Option Int) (acc : List (String × Int)) (e : String × Int) :
    List (String × Int) :=
  if primary = some e.2 then acc
  else if acc.any (fun f => f.2 == e.2) then acc
  else acc ++ [e]

/-- The qualified occurrences kept at their first appearance, one per
distinct soil type, the primary soil classification excluded. -/
def firstAppearances (primary : Option Int) (occ : List (String × Int)) :
    List (String × Int) :=
  occ.foldl (faStep primary) []

theorem secondaryStep_none (primary : Option Int)
    (acc : List (litholog_secondary_constituent_t × ℚ)) (pr : String × String)
    (h : secGuard pr = none) : secondaryStep primary acc pr = acc := by
  unfold secondaryStep
  rw [h]

theorem secondaryStep_some (primary : Option Int)
    (acc : List (litholog_secondary_constituent_t × ℚ)) (pr : String × String)
    (v : Int) (c : ℚ) (h : secGuard pr = some (v, c)) :
    secondaryStep primary acc pr =
      (if primary = some v then acc
       else if acc.any (fun e => e.1.soil_type == soilDisplay v) then acc
       else acc ++ [(⟨pr.1, soilDisplay v⟩, c)]) := by
  unfold secondaryStep
  rw [h]

theorem foldl_filterMap {α β γ : Type} (f : α → Option β) (g : γ → β → γ)
    (l : List α) (init : γ) :
    (l.filterMap f).foldl g init =
      l.foldl (fun acc a => ((f a).map (g acc)).getD acc) init := by
  induction l generalizing init with
  | nil => rfl
  | cons a l ih =>
    rw [List.filterMap_cons]
    cases hf : f a
    · simp only [List.foldl_cons, hf, Option.map_none', Option.getD_none]
      exact ih init
    · simp only [List.foldl_cons, hf, Option.map_some', Option.getD_some]
      exact ih _

/-- One step of the specification fold over the raw adjacent-pair scan:
apply `faStep` when the pair is a qualified occurrence. -/
def occStep (primary : Option Int) (acc : List (String × Int)) (pr : String × String) :
    List (String × Int) :=
  (((secGuard pr).map (fun vc => (pr.1, vc.1))).map (faStep primary acc)).getD acc

theorem occStep_none (primary : Option Int) (acc : List (String × Int))
    (pr : String × String) (h : secGuard pr = none) : occStep primary acc pr = acc := by
  unfold occStep
  rw [h]
  rfl

theorem occStep_some (primary : Option Int) (acc : List (String × Int))
    (pr : String × String) (v : Int) (c : ℚ) (h : secGuard pr = some (v, c)) :
    occStep primary acc pr = faStep primary acc (pr.1, v) := by
  unfold occStep
  rw [h]
  rfl

theorem lookupPhrase_code_mem (tbl : List (String × Int)) (u : String) (v : Int)
    (h : lookupPhrase tbl u = some v) : v ∈ tbl.map (fun x => x.2) := by
  unfold lookupPhrase at h
  cases hf : tbl.find? (fun e => e.1 == u) with
  | none => rw [hf] at h; exact Option.noConfusion h
  | some e =>
    rw [hf] at h
    have he : e ∈ tbl := List.mem_of_find?_eq_some hf
    have h2 : e.2 = v := by simpa using h
    exact h2 ▸ List.mem_map_of_mem _ he

theorem resolveUnit_code_mem (tbl : List (String × Int)) (u : String) (v : Int) (c : ℚ)
    (h : resolveUnit tbl u = some (v, c)) : v ∈ tbl.map (fun x => x.2) := by
  unfold resolveUnit at h
  split at h
  · next v0 hl =>
    simp only [Option.some.injEq, Prod.mk.injEq] at h
    exact h.1 ▸ lookupPhrase_code_mem tbl u v0 hl
  · split at h
    · split at h
      · next v0 hl =>
        simp only [Option.some.injEq, Prod.mk.injEq] at h
        exact h.1 ▸ lookupPhrase_code_mem tbl _ v0 hl
      · exact Option.noConfusion h
    · exact Option.noConfusion h

theorem secGuard_code_mem (pr : String × String) (v : Int) (c : ℚ)
    (h : secGuard pr = some (v, c)) : v ∈ soilTypeTable.map (fun x => x.2) := by
  unfold secGuard at h
  split at h
  · exact resolveUnit_code_mem _ _ _ _ h
  · exact Option.noConfusion h

theorem fieldOf_code_mem (tbl : List (String × Int)) (units : List String)
    (vc : Int × ℚ) (h : fieldOf tbl units = some vc) : vc.1 ∈ tbl.map (fun x => x.2) := by
  unfold fieldOf at h
  split at h
  · next u v c hrc =>
    obtain ⟨_, hru⟩ := resolveCatU_resolves tbl units u v c hrc
    simp only [Option.some.injEq] at h
    subst h
    exact resolveUnit_code_mem tbl u v c hru
  · exact Option.noConfusion h

theorem primarySoilOf_code_mem (units : List String) (mat : litholog_material_type_t)
    (p : Int) (h : primarySoilOf units mat = some p) :
    p ∈ soilTypeTable.map (fun x => x.2) := by
  unfold primarySoilOf at h
  split at h
  · cases hf : fieldOf soilTypeTable units with
    | none => rw [hf] at h; exact Option.noConfusion h
    | some vc =>
      rw [hf] at h
      simp only [Option.map_some', Option.some.injEq] at h
      exact h ▸ fieldOf_code_mem soilTypeTable units vc hf
  · exact Option.noConfusion h

theorem soilDisplay_inj :
    ∀ v1 ∈ soilTypeTable.map (fun x => x.2), ∀ v2 ∈ soilTypeTable.map (fun x => x.2),
      soilDisplay v1 = soilDisplay v2 → v1 = v2 := by decide

theorem any_map_eq {α β : Type} (l : List α) (f : α → β) (p : β → Bool) :
    (l.map f).any p = l.any (fun a => p (f a)) := by
  induction l with
  | nil => rfl
  | cons a l ih => simp only [List.map_cons, List.any_cons, ih]

theorem any_display_eq (accE : List (litholog_secondary_constituent_t × ℚ))
    (accS : List (String × Int)) (v : Int)
    (hmap : accE.map (fun x => x.1) =
      accS.map (fun e => (⟨e.1, soilDisplay e.2⟩ : litholog_secondary_constituent_t)))
    (hcodes : ∀ f ∈ accS, f.2 ∈ soilTypeTable.map (fun x => x.2))
    (hv : v ∈ soilTypeTable.map (fun x => x.2)) :
    accE.any (fun x => x.1.soil_type == soilDisplay v) =
      accS.any (fun f => f.2 == v) := by
  have h1 : accE.any (fun x => x.1.soil_type == soilDisplay v) =
      (accE.map (fun x => x.1)).any (fun y => y.soil_type == soilDisplay v) :=
    (any_map_eq accE (fun x => x.1) (fun y => y.soil_type == soilDisplay v)).symm
  rw [h1, hmap, any_map_eq]
  clear h1 hmap
  induction accS with
  | nil => rfl
  | cons f fs ih =>
    simp only [List.any_cons]
    rw [ih (fun g hg => hcodes g (List.mem_cons_of_mem f hg))]
    have hf := hcodes f (List.mem_cons_self f fs)
    by_cases hfv : f.2 = v
    · have h2 : (soilDisplay f.2 == soilDisplay v) = true := by
        rw [hfv]; exact beq_self_eq_true _
      have h3 : (f.2 == v) = true := by rw [hfv]; exact beq_self_eq_true v
      rw [h2, h3]
    · have hne : soilDisplay f.2 ≠ soilDisplay v :=
        fun he => hfv (soilDisplay_inj f.2 hf v hv he)
      have h2 : (soilDisplay f.2 == soilDisplay v) = false :=
        beq_eq_false_iff_ne.mpr hne
      have h3 : (f.2 == v) = false := beq_eq_false_iff_ne.mpr hfv
      rw [h2, h3]

/-- The extractor fold refines the specification fold: same entries (the
record parts), in the same order. -/
theorem sec_fold_eq (primary : Option Int) (prs : List (String × String)) :
    ∀ (accE : List (litholog_secondary_constituent_t × ℚ)) (accS : List (String × Int)),
      accE.map (fun x => x.1) =
        accS.map (fun e => (⟨e.1, soilDisplay e.2⟩ : litholog_secondary_constituent_t)) →
      (∀ f ∈ accS, f.2 ∈ soilTypeTable.map (fun x => x.2)) →
      (prs.foldl (secondaryStep primary) accE).map (fun x => x.1) =
        (prs.foldl (occStep primary) accS).map
          (fun e => (⟨e.1, soilDisplay e.2⟩ : litholog_secondary_constituent_t)) := by
  induction prs with
  | nil =>
    intro accE accS hmap _
    exact hmap
  | cons pr rest ih =>
    intro accE accS hmap hcodes
    rw [List.foldl_cons, List.foldl_cons]
    cases hg : secGuard pr with
    | none =>
      rw [secondaryStep_none primary accE pr hg, occStep_none primary accS pr hg]
      exact ih accE accS hmap hcodes
    | some vc =>
      obtain ⟨v, c⟩ := vc
      have hv : v ∈ soilTypeTable.map (fun x => x.2) := secGuard_code_mem pr v c hg
      rw [secondaryStep_some primary accE pr v c hg, occStep_some primary accS pr v c hg]
      simp only [faStep]
      by_cases hp : primary = some v
      · rw [if_pos hp, if_pos hp]
        exact ih accE accS hmap hcodes
      · rw [if_neg hp, if_neg hp]
        have hany := any_display_eq accE accS v hmap hcodes hv
        by_cases ha : accS.any (fun f => f.2 == v) = true
        · rw [if_pos (hany.trans ha), if_pos ha]
          exact ih accE accS hmap hcodes
        · have hne : ¬ (accE.any (fun e => e.1.soil_type == soilDisplay v) = true) :=
            fun hE => ha (hany.symm.trans hE)
          rw [if_neg hne, if_neg ha]
          apply ih
          · rw [List.map_append, List.map_append, hmap]
            rfl
          · intro f hf
            rcases List.mem_append.mp hf with h2 | h2
            · exact hcodes f h2
            · have h3 : f = (pr.1, v) := List.mem_singleton.mp h2
              subst h3
              exact hv

theorem qualifiedOccurrences_code_mem (units : List String) :
    ∀ e ∈ qualifiedOccurrences units, e.2 ∈ soilTypeTable.map (fun x => x.2) := by
  intro e he
  obtain ⟨pr, _, hf⟩ := List.mem_filterMap.mp he
  cases hg : secGuard pr with
  | none => rw [hg] at hf; exact Option.noConfusion hf
  | some vc =>
    rw [hg] at hf
    simp only [Option.map_some', Option.some.injEq] at hf
    have h2 : e.2 = vc.1 := by rw [← hf]
    exact h2 ▸ secGuard_code_mem pr vc.1 vc.2 hg

theorem fa_fold_mem (primary : Option Int) (occ : List (String × Int)) :
    ∀ accS, ∀ f ∈ occ.foldl (faStep primary) accS,
      f ∈ accS ∨ (f ∈ occ ∧ primary ≠ some f.2) := by
  induction occ with
  | nil => intro accS f hf; exact Or.inl hf
  | cons e rest ih =>
    intro accS f hf
    rw [List.foldl_cons] at hf
    rcases ih _ f hf with hacc | ⟨hocc, hne⟩
    · unfold faStep at hacc
      split at hacc
      · exact Or.inl hacc
      · split at hacc
        · exact Or.inl hacc
        · next hp _ =>
          rcases List.mem_append.mp hacc with h2 | h2
          · exact Or.inl h2
          · have h3 : f = e := List.mem_singleton.mp h2
            subst h3
            exact Or.inr ⟨List.mem_cons_self f rest, fun hpe => hp hpe⟩
    · exact Or.inr ⟨List.mem_cons_of_mem e hocc, hne⟩

theorem firstAppearances_mem (primary : Option Int) (occ : List (String × Int)) :
    ∀ f ∈ firstAppearances primary occ, f ∈ occ ∧ primary ≠ some f.2 := by
  intro f hf
  rcases fa_fold_mem primary occ [] f hf with h | h
  · exact absurd h (List.not_mem_nil f)
  · exact h

theorem fa_fold_nodup (primary : Option Int) (occ : List (String × Int)) :
    ∀ accS, (accS.map (fun e => e.2)).Nodup →
      ((occ.foldl (faStep primary) accS).map (fun e => e.2)).Nodup := by
  induction occ with
  | nil => intro accS h; exact h
  | cons e rest ih =>
    intro accS h
    rw [List.foldl_cons]
    apply ih
    unfold faStep
    split
    · exact h
    · split
      · exact h
      · next ha =>
        rw [List.map_append]
        refine List.Nodup.append h (List.nodup_singleton _) ?_
        intro a ha1 ha2
        have h2 : a = e.2 := List.mem_singleton.mp ha2
        subst h2
        obtain ⟨f, hfmem, hfe⟩ := List.mem_map.mp ha1
        exact ha (List.any_eq_true.mpr ⟨f, hfmem, by rw [hfe]; exact beq_self_eq_true _⟩)

theorem firstAppearances_snd_nodup (primary : Option Int) (occ : List (String × Int)) :
    ((firstAppearances primary occ).map (fun e => e.2)).Nodup :=
  fa_fold_nodup primary occ [] (by simp)

set_option maxHeartbeats 1000000 in
/-- The secondary-constituents field of the assembled record is the
extractor's output. -/
theorem buildRecord_secondary (s : String) :
    (buildRecord s).secondary_constituents =
      (extractSecondary (primarySoilOf (unitsOf s) (inferBranch (unitsOf s)))
        (unitsOf s)).map (fun e => e.1) := rfl

theorem qualifiedOccurrences_foldl (primary : Option Int) (units : List String) :
    firstAppearances primary (qualifiedOccurrences units) =
      (units.zip units.tail).foldl (occStep primary) [] := by
  unfold firstAppearances qualifiedOccurrences
  rw [foldl_filterMap]
  have hfn : (fun (acc : List (String × Int)) (pr : String × String) =>
      (((secGuard pr).map (fun vc => (pr.1, vc.1))).map (faStep primary acc)).getD acc) =
      occStep primary := by
    funext acc pr
    rfl
  rw [hfn]

theorem extractSecondary_eq_firstAppearances (primary : Option Int) (units : List String) :
    (extractSecondary primary units).map (fun e => e.1) =
      (firstAppearances primary (qualifiedOccurrences units)).map
        (fun e => (⟨e.1, soilDisplay e.2⟩ : litholog_secondary_constituent_t)) := by
  rw [qualifiedOccurrences_foldl]
  unfold extractSecondary
  exact sec_fold_eq primary (units.zip units.tail) [] [] rfl (by simp)

set_option maxHeartbeats 1000000 in
/-- C6: in every parsed record the secondary constituents are exactly
the qualified `(marker, soil type)` occurrences of the normalized unit
stream kept at first appearance — stream order, one entry per distinct
qualified soil type — and the primary soil classification is never
recorded as secondary; consequently the listed soil types are pairwise
distinct and different from the primary's canonical phrase. -/
theorem parse_secondary_first_appearance (s : String)
    (r : litholog_soil_description_t) (h : litholog_parse s = some r) :
    r.secondary_constituents =
      (firstAppearances (primarySoilOf (unitsOf s) (inferBranch (unitsOf s)))
        (qualifiedOccurrences (unitsOf s))).map
        (fun e => (⟨e.1, soilDisplay e.2⟩ : litholog_secondary_constituent_t)) ∧
    (r.secondary_constituents.map (fun c => c.soil_type)).Nodup ∧
    (∀ p, primarySoilOf (unitsOf s) (inferBranch (unitsOf s)) = some p →
      ∀ c ∈ r.secondary_constituents, c.soil_type ≠ soilDisplay p) := by
  have hsec : r.secondary_constituents =
      (firstAppearances (primarySoilOf (unitsOf s) (inferBranch (unitsOf s)))
        (qualifiedOccurrences (unitsOf s))).map
        (fun e => (⟨e.1, soilDisplay e.2⟩ : litholog_secondary_constituent_t)) := by
    rw [parse_record_eq s r h, buildRecord_secondary]
    exact extractSecondary_eq_firstAppearances _ _
  have hcodes : ∀ f ∈ firstAppearances (primarySoilOf (unitsOf s) (inferBranch (unitsOf s)))
      (qualifiedOccurrences (unitsOf s)), f.2 ∈ soilTypeTable.map (fun x => x.2) :=
    fun f hf => qualifiedOccurrences_code_mem (unitsOf s) f
      (firstAppearances_mem _ _ f hf).1
  refine ⟨hsec, ?_, ?_⟩
  · rw [hsec, List.map_map]
    have hrw : ((fun c : litholog_secondary_constituent_t => c.soil_type) ∘
        (fun e : String × Int => (⟨e.1, soilDisplay e.2⟩ : litholog_secondary_constituent_t))) =
        (fun e : String × Int => soilDisplay e.2) := rfl
    rw [hrw, show (fun e : String × Int => soilDisplay e.2) =
      (soilDisplay ∘ (fun e : String × Int => e.2)) from rfl, ← List.map_map]
    apply List.Nodup.map_on
    · intro x hx y hy hxy
      obtain ⟨ex, hex, hx2⟩ := List.mem_map.mp hx
      obtain ⟨ey, hey, hy2⟩ := List.mem_map.mp hy
      exact soilDisplay_inj x (hx2 ▸ hcodes ex hex) y (hy2 ▸ hcodes ey hey) hxy
    · exact firstAppearances_snd_nodup _ _
  · intro p hp c hc
    rw [hsec] at hc
    obtain ⟨f, hf, hfc⟩ := List.mem_map.mp hc
    have hmemf := firstAppearances_mem _ _ f hf
    intro hcontra
    have hcs : c.soil_type = soilDisplay f.2 := by rw [← hfc]
    have hfp : f.2 = p :=
      soilDisplay_inj f.2 (hcodes f hf) p
        (primarySoilOf_code_mem _ _ p hp) (hcs ▸ hcontra)
    exact hmemf.2 (hfp.symm ▸ hp)

/-- Witness for C6 at a concrete input. -/
theorem parse_secondary_first_appearance_witness :
    ∃ r, litholog_parse "clay with some sand" = some r ∧
      (r.secondary_constituents.map (fun c => c.soil_type)).Nodup := by
  have hs : (litholog_parse "clay with some sand").isSome = true := by decide
  exact ⟨(litholog_parse "clay with some sand").get hs,
    (Option.some_get hs).symm,
    (parse_secondary_first_appearance "clay with some sand" _
      (Option.some_get hs).symm).2.1⟩

/-! ## Round trip: tokenizing generated text -/

theorem fieldsOf_ne_nil (cs : List Char) : fieldsOf cs ≠ [] := by
  cases cs with
  | nil => simp [fieldsOf]
  | cons c cs =>
    unfold fieldsOf
    cases fieldsOf cs with
    | nil => simp
    | cons w ws =>
      by_cases hc : c = ' ' <;> simp [hc]

theorem fieldsOf_cons_space (cs : List Char) :
    fieldsOf (' ' :: cs) = [] :: fieldsOf cs := by
  cases h : fieldsOf cs with
  | nil => exact absurd h (fieldsOf_ne_nil cs)
  | cons w ws => simp [fieldsOf, h]

theorem fieldsOf_append_space (a b : List Char) :
    fieldsOf (a ++ ' ' :: b) = fieldsOf a ++ fieldsOf b := by
  induction a with
  | nil =>
    rw [List.nil_append, fieldsOf_cons_space]
    rfl
  | cons c a2 ih =>
    by_cases hc : c = ' '
    · subst hc
      rw [List.cons_append, fieldsOf_cons_space, fieldsOf_cons_space, ih]
      rfl
    · rw [List.cons_append]
      cases h : fieldsOf a2 with
      | nil => exact absurd h (fieldsOf_ne_nil a2)
      | cons w ws => simp [fieldsOf, ih, h, hc]

theorem wordsOf_nil : wordsOf [] = [] := rfl

theorem wordsOf_cons_space (cs : List Char) : wordsOf (' ' :: cs) = wordsOf cs := by
  unfold wordsOf
  rw [fieldsOf_cons_space]
  rfl

theorem wordsOf_append_space (a b : List Char) :
    wordsOf (a ++ ' ' :: b) = wordsOf a ++ wordsOf b := by
  unfold wordsOf
  rw [fieldsOf_append_space, List.filter_append]

theorem cleanChar_space : cleanChar ' ' = ' ' := rfl

theorem wordsOf_joinPieces : ∀ ps : List String,
    wordsOf ((joinPieces ps).map cleanChar) =
      (ps.map (fun p => wordsOf (p.data.map cleanChar))).flatten := by
  intro ps
  induction ps with
  | nil => rw [show joinPieces [] = [] from rfl]; simp [wordsOf_nil]
  | cons p rest ih =>
    cases rest with
    | nil =>
      rw [show joinPieces [p] = p.data from rfl]
      simp
    | cons q rest2 =>
      rw [show joinPieces (p :: q :: rest2) = p.data ++ ' ' :: joinPieces (q :: rest2)
        from rfl]
      rw [List.map_append,
          show (' ' :: joinPieces (q :: rest2)).map cleanChar =
            ' ' :: (joinPieces (q :: rest2)).map cleanChar from rfl,
          wordsOf_append_space, ih]
      simp

/-- The word tokens of one generated piece. -/
def wordTokens (p : String) : List String :=
  (wordsOf (p.data.map cleanChar)).map (fun w => String.mk w)

theorem tokensOf_joinPieces (ps : List String) :
    tokensOf (String.mk (joinPieces ps)) = (ps.map wordTokens).flatten := by
  show (wordsOf ((joinPieces ps).map cleanChar)).map (fun w => String.mk w) =
    (ps.map wordTokens).flatten
  rw [wordsOf_joinPieces, List.map_flatten, List.map_map]
  rfl

/-! ## Round trip: re-merging generated words into units -/

/-- The display phrases of one category table (one per entry; synonym
entries repeat the canonical display). -/
def displaysOf (tbl : List (String × Int)) : List String :=
  tbl.map (fun e => displayOf tbl e.2)

/-- Every unit string the generator can emit: the display phrases of all
categories plus the qualifier markers (which appear as stored amounts). -/
def genUnitTable : List String :=
  displaysOf consistencyTable ++ displaysOf densityTable ++ displaysOf soilTypeTable ++
  displaysOf rockStrengthTable ++ displaysOf weatheringTable ++
  displaysOf rockStructureTable ++ displaysOf rockTypeTable ++ qualifierMarkers

/-- The possible first words of generated units. -/
def genFirstWords : List String :=
  genUnitTable.filterMap (fun u => (wordTokens u).head?)

theorem gen_unit_words : ∀ u ∈ genUnitTable,
    (wordTokens u = [u]) ∨ (wordTokens u ∈ phraseTable ∧ unitName (wordTokens u) = u) := by
  decide

theorem gen_unit_words_ne_nil : ∀ u ∈ genUnitTable, wordTokens u ≠ [] := by decide

theorem gen_no_inner_phrase : ∀ u ∈ genUnitTable, ∀ p ∈ phraseTable,
    p.isPrefixOf (wordTokens u) = true → p = wordTokens u := by decide

set_option maxHeartbeats 4000000 in
theorem gen_no_cross_phrase : ∀ u ∈ genUnitTable, ∀ p ∈ phraseTable, ∀ w ∈ genFirstWords,
    ¬((wordTokens u).length < p.length ∧
      p.take (wordTokens u).length = wordTokens u ∧
      p[(wordTokens u).length]? = some w) := by decide

theorem mergeAux_fuel : ∀ (n : ℕ) (ws : List String), ws.length ≤ n →
    mergeAux n ws = mergePhrases ws := by
  intro n
  induction n using Nat.strong_induction_on with
  | _ n ih =>
    intro ws h
    cases n with
    | zero =>
      have hw : ws = [] := List.eq_nil_of_length_eq_zero (Nat.le_zero.mp h)
      subst hw
      rfl
    | succ n2 =>
      cases ws with
      | nil => rfl
      | cons w rest =>
        have hr : rest.length ≤ n2 := by
          rw [List.length_cons] at h
          omega
        show mergeAux (n2 + 1) (w :: rest) = mergeAux (rest.length + 1) (w :: rest)
        cases hf : findPhrase (w :: rest) with
        | none =>
          simp only [mergeAux, hf]
          rw [ih n2 (Nat.lt_succ_self n2) rest hr,
              ih rest.length (Nat.lt_succ_of_le hr) rest (le_refl _)]
        | some p =>
          have hp : 0 < p.length :=
            phraseTable_length_pos p (List.mem_of_find?_eq_some hf)
          have hd : ((w :: rest).drop p.length).length ≤ rest.length := by
            rw [List.length_drop, List.length_cons]
            omega
          simp only [mergeAux, hf]
          rw [ih n2 (Nat.lt_succ_self n2) _ (Nat.le_trans hd hr),
              ih rest.length (Nat.lt_succ_of_le hr) _ hd]

theorem mergePhrases_nil : mergePhrases [] = [] := rfl

theorem mergePhrases_cons (w : String) (rest : List String) :
    mergePhrases (w :: rest) =
      match findPhrase (w :: rest) with
      | some p => unitName p :: mergePhrases ((w :: rest).drop p.length)
      | none => w :: mergePhrases rest := by
  show mergeAux (rest.length + 1) (w :: rest) = _
  cases hf : findPhrase (w :: rest) with
  | none =>
    simp only [mergeAux, hf]
    rfl
  | some p =>
    have hp : 0 < p.length :=
      phraseTable_length_pos p (List.mem_of_find?_eq_some hf)
    simp only [mergeAux, hf]
    rw [mergeAux_fuel rest.length _ (by
      rw [List.length_drop, List.length_cons]
      omega)]

theorem find?_eq_some_of_unique {α : Type} (l : List α) (pred : α → Bool) (a : α)
    (ha : a ∈ l) (hpa : pred a = true) (hu : ∀ b ∈ l, pred b = true → b = a) :
    l.find? pred = some a := by
  induction l with
  | nil => cases ha
  | cons x xs ih =>
    cases hx : pred x
    · rw [List.find?_cons_of_neg _ (by simp [hx])]
      apply ih
      · rcases List.mem_cons.mp ha with h | h
        · subst h; rw [hpa] at hx; exact Bool.noConfusion hx
        · exact h
      · exact fun b hb hpb => hu b (List.mem_cons_of_mem x hb) hpb
    · rw [List.find?_cons_of_pos _ (by simp [hx])]
      exact congrArg some (hu x (List.mem_cons_self x xs) hx)

/-- A known phrase that is a word-prefix of a generated unit followed by
more generated units must be that unit's own word list. -/
theorem phrase_prefix_eq (u : String) (rest : List String) (p : List String)
    (hu : u ∈ genUnitTable) (hp : p ∈ phraseTable)
    (hrest : rest = [] ∨ ∃ v ∈ genUnitTable, ∃ rest2, rest = wordTokens v ++ rest2)
    (hpre : p <+: (wordTokens u ++ rest)) : p = wordTokens u := by
  by_cases hlen : p.length ≤ (wordTokens u).length
  · have hpt : p = (wordTokens u ++ rest).take p.length :=
      List.prefix_iff_eq_take.mp hpre
    have ht2 : (wordTokens u ++ rest).take p.length =
        (wordTokens u).take p.length ++ rest.take (p.length - (wordTokens u).length) := by
      rw [List.take_append_eq_append_take]
    have hz : p.length - (wordTokens u).length = 0 := Nat.sub_eq_zero_of_le hlen
    rw [ht2, hz, List.take_zero, List.append_nil] at hpt
    have hpre2 : p <+: wordTokens u := hpt ▸ List.take_prefix p.length (wordTokens u)
    exact gen_no_inner_phrase u hu p hp (List.isPrefixOf_iff_prefix.mpr hpre2)
  · exfalso
    push_neg at hlen
    rcases hrest with hnil | ⟨v, hv, rest2, hr⟩
    · have := hpre.length_le
      rw [hnil, List.append_nil] at this
      omega
    · obtain ⟨t, ht⟩ := hpre
      have htake : p.take (wordTokens u).length = wordTokens u := by
        have h1 : p = (wordTokens u ++ rest).take p.length :=
          List.prefix_iff_eq_take.mp ⟨t, ht⟩
        rw [h1, List.take_take]
        have hmin : min (wordTokens u).length p.length = (wordTokens u).length := by
          omega
        rw [hmin, List.take_left]
      obtain ⟨w0, ws0, hw0⟩ : ∃ w0 ws0, wordTokens v = w0 :: ws0 := by
        cases hwv : wordTokens v with
        | nil => exact absurd hwv (gen_unit_words_ne_nil v hv)
        | cons w0 ws0 => exact ⟨w0, ws0, rfl⟩
      have hget : p[(wordTokens u).length]? = some w0 := by
        have h1 : (wordTokens u ++ rest)[(wordTokens u).length]? = some w0 := by
          rw [List.getElem?_append_right (le_refl _), Nat.sub_self, hr, hw0]
          simp
        rw [← ht] at h1
        rw [List.getElem?_append] at h1
        rwa [if_pos hlen] at h1
      have hw0mem : w0 ∈ genFirstWords := by
        apply List.mem_filterMap.mpr
        exact ⟨v, hv, by rw [hw0]; rfl⟩
      exact gen_no_cross_phrase u hu p hp w0 hw0mem ⟨hlen, htake, hget⟩

theorem find?_pred_of_eq_some {α : Type} (l : List α) (pred : α → Bool) (a : α)
    (h : l.find? pred = some a) : pred a = true :=
  List.find?_some h

theorem mergePhrases_unit_cons (u : String) (rest : List String)
    (hu : u ∈ genUnitTable)
    (hrest : rest = [] ∨ ∃ v ∈ genUnitTable, ∃ rest2, rest = wordTokens v ++ rest2) :
    mergePhrases (wordTokens u ++ rest) = u :: mergePhrases rest := by
  obtain ⟨w0, ws0, hw0⟩ : ∃ w0 ws0, wordTokens u = w0 :: ws0 := by
    cases hwv : wordTokens u with
    | nil => exact absurd hwv (gen_unit_words_ne_nil u hu)
    | cons w0 ws0 => exact ⟨w0, ws0, rfl⟩
  have hshape : wordTokens u ++ rest = w0 :: (ws0 ++ rest) := by rw [hw0]; rfl
  rw [hshape, mergePhrases_cons]
  cases hf : findPhrase (w0 :: (ws0 ++ rest)) with
  | none =>
    rcases gen_unit_words u hu with hsingle | hmulti
    · have hww : w0 = u ∧ ws0 = [] := by
        rw [hsingle] at hw0
        exact List.cons.inj hw0.symm
      rw [hww.1, hww.2]
      simp
    · exfalso
      have hnone := List.find?_eq_none.mp hf (wordTokens u) hmulti.1
      apply hnone
      rw [← hshape]
      exact List.isPrefixOf_iff_prefix.mpr (List.prefix_append _ _)
  | some p =>
    have hpmem : p ∈ phraseTable := List.mem_of_find?_eq_some hf
    have hfp :=
      find?_pred_of_eq_some phraseTable
        (fun q => q.isPrefixOf (w0 :: (ws0 ++ rest))) p hf
    have hppre : p <+: (wordTokens u ++ rest) := by
      rw [hshape]
      exact List.isPrefixOf_iff_prefix.mp hfp
    have hpeq : p = wordTokens u := phrase_prefix_eq u rest p hu hpmem hrest hppre
    subst hpeq
    have hname : unitName (wordTokens u) = u := by
      rcases gen_unit_words u hu with hsingle | hmulti
      · rw [hsingle]
        rfl
      · exact hmulti.2
    have hdrop : (w0 :: (ws0 ++ rest)).drop (wordTokens u).length = rest := by
      rw [← hshape]
      exact List.drop_left _ _
    show unitName (wordTokens u) ::
        mergePhrases ((w0 :: (ws0 ++ rest)).drop (wordTokens u).length) =
      u :: mergePhrases rest
    rw [hdrop, hname]

theorem mergePhrases_flat_units : ∀ us : List String, (∀ u ∈ us, u ∈ genUnitTable) →
    mergePhrases ((us.map wordTokens).flatten) = us := by
  intro us
  induction us with
  | nil => intro _; exact mergePhrases_nil
  | cons u us2 ih =>
    intro h
    have hflat : ((u :: us2).map wordTokens).flatten =
        wordTokens u ++ (us2.map wordTokens).flatten := by simp
    rw [hflat, mergePhrases_unit_cons u _ (h u (List.mem_cons_self u us2)) ?_]
    · rw [ih (fun v hv => h v (List.mem_cons_of_mem u hv))]
    · cases us2 with
      | nil => exact Or.inl (by simp)
      | cons v us3 =>
        refine Or.inr ⟨v, h v (List.mem_cons_of_mem u (List.mem_cons_self v us3)), ?_⟩
        exact ⟨(us3.map wordTokens).flatten, by simp⟩

/-! ## Round trip: buildRecord field equations and generator inversion -/

theorem buildRecord_material (s : String) :
    (buildRecord s).material_type = inferBranch (unitsOf s) := rfl

theorem buildRecord_consistency (s : String) :
    (buildRecord s).consistency = fieldVal (if inferBranch (unitsOf s) = .SOIL
      then fieldOf consistencyTable (unitsOf s) else none) := rfl

theorem buildRecord_density (s : String) :
    (buildRecord s).density = fieldVal (if inferBranch (unitsOf s) = .SOIL
      then fieldOf densityTable (unitsOf s) else none) := rfl

theorem buildRecord_soil_type (s : String) :
    (buildRecord s).primary_soil_type = fieldVal (if inferBranch (unitsOf s) = .SOIL
      then fieldOf soilTypeTable (unitsOf s) else none) := rfl

theorem buildRecord_rock_strength (s : String) :
    (buildRecord s).rock_strength = fieldVal (if inferBranch (unitsOf s) = .ROCK
      then fieldOf rockStrengthTable (unitsOf s) else none) := rfl

theorem buildRecord_weathering (s : String) :
    (buildRecord s).weathering_grade = fieldVal (if inferBranch (unitsOf s) = .ROCK
      then fieldOf weatheringTable (unitsOf s) else none) := rfl

theorem buildRecord_structure (s : String) :
    (buildRecord s).rock_structure = fieldVal (if inferBranch (unitsOf s) = .ROCK
      then fieldOf rockStructureTable (unitsOf s) else none) := rfl

theorem buildRecord_rock_type (s : String) :
    (buildRecord s).primary_rock_type = fieldVal (if inferBranch (unitsOf s) = .ROCK
      then fieldOf rockTypeTable (unitsOf s) else none) := rfl

theorem generate_some_inv (r : litholog_soil_description_t) (g : String)
    (hg : litholog_generate_description r = some g) :
    g = String.mk (joinPieces (fullPieces r)) ∧
    (r.material_type = .SOIL → 0 ≤ r.primary_soil_type) ∧
    (r.material_type = .ROCK → 0 ≤ r.primary_rock_type) := by
  unfold litholog_generate_description at hg
  cases hm : r.material_type
  · rw [hm] at hg
    simp only at hg
    by_cases hp : r.primary_soil_type < 0
    · rw [if_pos hp] at hg
      exact Option.noConfusion hg
    · rw [if_neg hp] at hg
      exact ⟨(Option.some.inj hg).symm, fun _ => by omega,
        fun hR => absurd hR (by simp)⟩
  · rw [hm] at hg
    simp only at hg
    by_cases hp : r.primary_rock_type < 0
    · rw [if_pos hp] at hg
      exact Option.noConfusion hg
    · rw [if_neg hp] at hg
      exact ⟨(Option.some.inj hg).symm, fun hS => absurd hS (by simp),
        fun _ => by omega⟩

/-! ## Round trip: the generated unit stream -/

/-- The units of the secondary-constituents clause: "with" followed by
the flat `amount, soil type` pairs (the comma pieces carry no words). -/
def secUnits (secs : List litholog_secondary_constituent_t) : List String :=
  match secs with
  | [] => []
  | _ => "with" :: (secs.map (fun c => [c.amount, c.soil_type])).flatten

/-- The unit stream the normalizer recovers from a generated full
description. -/
def genUnits (r : litholog_soil_description_t) : List String :=
  match r.material_type with
  | .SOIL =>
    pieceOf consistencyTable r.consistency ++ pieceOf densityTable r.density ++
    [displayOf soilTypeTable r.primary_soil_type] ++
    secUnits r.secondary_constituents
  | .ROCK =>
    pieceOf rockStrengthTable r.rock_strength ++
    [displayOf rockTypeTable r.primary_rock_type] ++
    pieceOf weatheringTable r.weathering_grade ++
    pieceOf rockStructureTable r.rock_structure ++
    secUnits r.secondary_constituents

theorem wordTokens_comma : wordTokens "," = [] := rfl

theorem wordTokens_append_space (a b : String) :
    wordTokens (a ++ " " ++ b) = wordTokens a ++ wordTokens b := by
  unfold wordTokens
  have hdata : (a ++ " " ++ b).data = a.data ++ (' ' :: b.data) := by
    rw [String.data_append, String.data_append]
    simp [List.append_assoc]
  rw [hdata, List.map_append,
      show (' ' :: b.data).map cleanChar = ' ' :: b.data.map cleanChar from rfl,
      wordsOf_append_space, List.map_append]

theorem tokens_intersperse_comma : ∀ l : List String,
    ((l.intersperse ",").map wordTokens).flatten = (l.map wordTokens).flatten := by
  intro l
  induction l with
  | nil => rfl
  | cons p rest ih =>
    cases rest with
    | nil => rfl
    | cons q rest2 =>
      rw [show (p :: q :: rest2).intersperse "," =
        p :: "," :: (q :: rest2).intersperse "," from rfl]
      simp only [List.map_cons, List.flatten_cons, wordTokens_comma,
        List.nil_append, ih]

theorem tokens_secItems : ∀ secs : List litholog_secondary_constituent_t,
    ((secs.map (fun c => c.amount ++ " " ++ c.soil_type)).map wordTokens).flatten =
      ((secs.map (fun c => [c.amount, c.soil_type])).flatten.map wordTokens).flatten := by
  intro secs
  induction secs with
  | nil => rfl
  | cons c cs ih =>
    simp only [List.map_cons, List.flatten_cons, List.map_append, List.flatten_append]
    rw [wordTokens_append_space, ih]
    simp [List.append_assoc]

theorem tokens_secPieces (secs : List litholog_secondary_constituent_t) :
    ((secPieces secs).map wordTokens).flatten =
      ((secUnits secs).map wordTokens).flatten := by
  cases secs with
  | nil => rfl
  | cons c cs =>
    show wordTokens "with" ++
        ((((c :: cs).map (fun c => c.amount ++ " " ++ c.soil_type)).intersperse ",").map
          wordTokens).flatten =
      wordTokens "with" ++
        ((((c :: cs).map (fun c => [c.amount, c.soil_type])).flatten).map
          wordTokens).flatten
    rw [tokens_intersperse_comma, tokens_secItems]

theorem tokens_fullPieces (r : litholog_soil_description_t) :
    ((fullPieces r).map wordTokens).flatten = ((genUnits r).map wordTokens).flatten := by
  unfold fullPieces genUnits
  cases hm : r.material_type <;>
    simp only [List.map_append, List.flatten_append, tokens_secPieces]

/-! ## Round trip: resolution facts about the generated vocabulary -/

/-- Reverse lookup of a canonical display phrase finds the entry's code
(synonym entries list the canonical display first). -/
theorem display_lookup_exact : ∀ tbl ∈ allCategoryTables, ∀ e ∈ tbl,
    lookupPhrase tbl (displayOf tbl e.2) = some e.2 := by decide

theorem table_codes_nonneg : ∀ tbl ∈ allCategoryTables, ∀ e ∈ tbl, 0 ≤ e.2 := by decide

set_option maxHeartbeats 40000000 in
theorem consistency_others_none :
    ∀ u ∈ displaysOf densityTable ++ displaysOf soilTypeTable ++ qualifierMarkers,
      (resolveUnit consistencyTable u).isNone = true := by decide

set_option maxHeartbeats 40000000 in
theorem density_others_none :
    ∀ u ∈ displaysOf consistencyTable ++ displaysOf soilTypeTable ++ qualifierMarkers,
      (resolveUnit densityTable u).isNone = true := by decide

set_option maxHeartbeats 40000000 in
theorem soil_pre_none :
    ∀ u ∈ displaysOf consistencyTable ++ displaysOf densityTable,
      (resolveUnit soilTypeTable u).isNone = true := by decide

set_option maxHeartbeats 40000000 in
theorem rock_strength_others_none :
    ∀ u ∈ displaysOf rockTypeTable ++ displaysOf weatheringTable ++
        displaysOf rockStructureTable ++ qualifierMarkers ++ displaysOf soilTypeTable,
      (resolveUnit rockStrengthTable u).isNone = true := by decide

set_option maxHeartbeats 40000000 in
theorem rock_type_pre_none :
    ∀ u ∈ displaysOf rockStrengthTable,
      (resolveUnit rockTypeTable u).isNone = true := by decide

set_option maxHeartbeats 40000000 in
theorem weathering_others_none :
    ∀ u ∈ displaysOf rockStrengthTable ++ displaysOf rockTypeTable ++
        displaysOf rockStructureTable ++ qualifierMarkers ++ displaysOf soilTypeTable,
      (resolveUnit weatheringTable u).isNone = true := by decide

set_option maxHeartbeats 40000000 in
theorem structure_others_none :
    ∀ u ∈ displaysOf rockStrengthTable ++ displaysOf rockTypeTable ++
        displaysOf weatheringTable ++ qualifierMarkers ++ displaysOf soilTypeTable,
      (resolveUnit rockStructureTable u).isNone = true := by decide

/-- Every unit that can appear in a generated Soil description. -/
def soilStreamSet : List String :=
  displaysOf consistencyTable ++ displaysOf densityTable ++ displaysOf soilTypeTable ++
  qualifierMarkers

/-- Every unit that can appear unmarked in a generated Rock description. -/
def rockUnmarkedSet : List String :=
  displaysOf rockStrengthTable ++ displaysOf rockTypeTable ++ displaysOf weatheringTable ++
  displaysOf rockStructureTable ++ qualifierMarkers

/-- Every unit that can appear in a generated Rock description. -/
def rockStreamSet : List String := rockUnmarkedSet ++ displaysOf soilTypeTable

set_option maxHeartbeats 40000000 in
theorem soil_rock_scores_zero :
    ∀ u ∈ soilStreamSet, unitBranchScore rockTables u = (0, 1) := by decide

set_option maxHeartbeats 40000000 in
theorem rock_soil_scores_zero :
    ∀ u ∈ rockUnmarkedSet, unitBranchScore soilTables u = (0, 1) := by decide

set_option maxHeartbeats 40000000 in
theorem rock_type_scores_one :
    ∀ u ∈ displaysOf rockTypeTable, unitBranchScore rockTables u = (1, 1) := by decide

set_option maxHeartbeats 40000000 in
theorem rock_scores_den_pos :
    ∀ u ∈ rockUnmarkedSet, 0 < (unitBranchScore rockTables u).2 := by decide

theorem soil_material_none :
    ∀ u ∈ soilStreamSet, lookupPhrase materialTable u = none := by decide

theorem rock_material_none :
    ∀ u ∈ rockStreamSet, lookupPhrase materialTable u = none := by decide

theorem displays_not_markers :
    ∀ u ∈ displaysOf consistencyTable ++ displaysOf densityTable ++
        displaysOf soilTypeTable ++ displaysOf rockStrengthTable ++
        displaysOf weatheringTable ++ displaysOf rockStructureTable ++
        displaysOf rockTypeTable,
      qualifierMarkers.contains u = false := by decide

/-! ## Round trip: category resolution over a generated stream -/

theorem findSome?_cons_some {α β : Type} (f : α → Option β) (a : α) (l : List α) (b : β)
    (h : f a = some b) : (a :: l).findSome? f = some b := by
  simp [List.findSome?_cons, h]

theorem findSome?_cons_none {α β : Type} (f : α → Option β) (a : α) (l : List α)
    (h : f a = none) : (a :: l).findSome? f = l.findSome? f := by
  simp [List.findSome?_cons, h]

theorem findSome?_append_left_none {α β : Type} (f : α → Option β) :
    ∀ (l1 l2 : List α), (∀ a ∈ l1, f a = none) →
      (l1 ++ l2).findSome? f = l2.findSome? f := by
  intro l1 l2
  induction l1 with
  | nil => intro _; rfl
  | cons a l ih =>
    intro h
    rw [List.cons_append, findSome?_cons_none f a _ (h a (List.mem_cons_self a l))]
    exact ih (fun b hb => h b (List.mem_cons_of_mem a hb))

theorem resolveUnit_of_lookup (tbl : List (String × Int)) (u : String) (v : Int)
    (h : lookupPhrase tbl u = some v) : resolveUnit tbl u = some (v, 1) := by
  simp only [resolveUnit, h]

theorem resolveCatU_resolved (tbl : List (String × Int)) (A B : List String) (d : String)
    (v : Int) (hA : ∀ u ∈ A, resolveUnit tbl u = none)
    (hd : resolveUnit tbl d = some (v, 1)) :
    resolveCatU tbl (A ++ d :: B) = some (d, v, 1) := by
  unfold resolveCatU
  rw [findSome?_append_left_none _ A _ (by intro u hu; simp [hA u hu])]
  apply findSome?_cons_some
  simp [hd]

theorem resolveCatU_all_none (tbl : List (String × Int)) (units : List String)
    (h : ∀ u ∈ units, resolveUnit tbl u = none) :
    resolveCatU tbl units = none := by
  unfold resolveCatU
  rw [List.findSome?_eq_none_iff]
  intro u hu
  simp [h u hu]

theorem fieldVal_resolved (tbl : List (String × Int)) (A B : List String) (d : String)
    (v : Int) (hA : ∀ u ∈ A, resolveUnit tbl u = none)
    (hd : resolveUnit tbl d = some (v, 1)) :
    fieldVal (fieldOf tbl (A ++ d :: B)) = v := by
  unfold fieldOf
  rw [resolveCatU_resolved tbl A B d v hA hd]
  rfl

theorem fieldVal_unresolved (tbl : List (String × Int)) (units : List String)
    (h : ∀ u ∈ units, resolveUnit tbl u = none) :
    fieldVal (fieldOf tbl units) = -1 := by
  unfold fieldOf
  rw [resolveCatU_all_none tbl units h]
  rfl

/-! ## Round trip: branch inference over a generated stream -/

theorem unmarkedGo_cons (prev : Option String) (u : String) (rest : List String) :
    unmarkedGo prev (u :: rest) =
      (if prevIsMarker prev then [] else [u]) ++ unmarkedGo (some u) rest := rfl

theorem unmarkedGo_subset : ∀ (l : List String) (p : Option String),
    ∀ u ∈ unmarkedGo p l, u ∈ l := by
  intro l
  induction l with
  | nil => intro p u hu; exact absurd hu (List.not_mem_nil u)
  | cons a rest ih =>
    intro p u hu
    rw [unmarkedGo_cons] at hu
    rcases List.mem_append.mp hu with h | h
    · revert h
      split
      · intro h; exact absurd h (List.not_mem_nil u)
      · intro h
        exact (List.mem_singleton.mp h) ▸ List.mem_cons_self a rest
    · exact List.mem_cons_of_mem a (ih (some a) u h)

theorem unmarkedUnits_subset (us : List String) :
    ∀ u ∈ unmarkedUnits us, u ∈ us :=
  unmarkedGo_subset us none

theorem unmarkedGo_all : ∀ (l : List String) (p : Option String),
    prevIsMarker p = false →
    (∀ u ∈ l, qualifierMarkers.contains u = false) →
    unmarkedGo p l = l := by
  intro l
  induction l with
  | nil => intro p _ _; rfl
  | cons a rest ih =>
    intro p hp h
    rw [unmarkedGo_cons, hp]
    rw [ih (some a) (h a (List.mem_cons_self a rest))
      (fun u hu => h u (List.mem_cons_of_mem a hu))]
    rfl

/-- The predecessor of the first unit after `l`, scanning from `p`. -/
def lastPrev : Option String → List String → Option String
  | p, [] => p
  | _, u :: rest => lastPrev (some u) rest

theorem lastPrev_mem : ∀ (l : List String) (p : Option String),
    lastPrev p l = p ∨ ∃ u ∈ l, lastPrev p l = some u := by
  intro l
  induction l with
  | nil => intro p; exact Or.inl rfl
  | cons a rest ih =>
    intro p
    show (lastPrev (some a) rest = p) ∨ _
    rcases ih (some a) with h | ⟨u, hu, h⟩
    · exact Or.inr ⟨a, List.mem_cons_self a rest, h⟩
    · exact Or.inr ⟨u, List.mem_cons_of_mem a hu, h⟩

theorem unmarkedGo_append : ∀ (a b : List String) (p : Option String),
    unmarkedGo p (a ++ b) = unmarkedGo p a ++ unmarkedGo (lastPrev p a) b := by
  intro a
  induction a with
  | nil => intro b p; rfl
  | cons u a2 ih =>
    intro b p
    rw [List.cons_append, unmarkedGo_cons, unmarkedGo_cons, ih b (some u),
      List.append_assoc]
    rfl

theorem foldl_fracAdd_zero (f : String → ℕ × ℕ) :
    ∀ (l : List String) (acc : ℕ × ℕ), (∀ u ∈ l, f u = (0, 1)) →
      l.foldl (fun a u => fracAdd a (f u)) acc = acc := by
  intro l
  induction l with
  | nil => intro acc _; rfl
  | cons u rest ih =>
    intro acc h
    simp only [List.foldl_cons]
    rw [h u (List.mem_cons_self u rest)]
    have hstep : fracAdd acc (0, 1) = acc := by
      cases acc with
      | mk a b => simp [fracAdd]
    rw [hstep]
    exact ih _ (fun v hv => h v (List.mem_cons_of_mem u hv))

theorem branchScore_all_zero (tbls : List (List (String × Int))) (units : List String)
    (h : ∀ u ∈ unmarkedUnits units, unitBranchScore tbls u = (0, 1)) :
    branchScore tbls units = (0, 1) := by
  unfold branchScore
  exact foldl_fracAdd_zero _ _ _ h

theorem foldl_fracAdd_den_pos (f : String → ℕ × ℕ) :
    ∀ (l : List String) (acc : ℕ × ℕ), 0 < acc.2 → (∀ u ∈ l, 0 < (f u).2) →
      0 < (l.foldl (fun a u => fracAdd a (f u)) acc).2 := by
  intro l
  induction l with
  | nil => intro acc h _; exact h
  | cons u rest ih =>
    intro acc h hl
    simp only [List.foldl_cons]
    apply ih
    · show 0 < acc.2 * (f u).2
      exact Nat.mul_pos h (hl u (List.mem_cons_self u rest))
    · exact fun v hv => hl v (List.mem_cons_of_mem u hv)

theorem foldl_fracAdd_num_pos (f : String → ℕ × ℕ) :
    ∀ (l : List String) (acc : ℕ × ℕ), 0 < acc.1 → 0 < acc.2 →
      (∀ u ∈ l, 0 < (f u).2) →
      0 < (l.foldl (fun a u => fracAdd a (f u)) acc).1 := by
  intro l
  induction l with
  | nil => intro acc h _ _; exact h
  | cons u rest ih =>
    intro acc h1 h2 hl
    simp only [List.foldl_cons]
    apply ih
    · show 0 < acc.1 * (f u).2 + (f u).1 * acc.2
      have := Nat.mul_pos h1 (hl u (List.mem_cons_self u rest))
      omega
    · show 0 < acc.2 * (f u).2
      exact Nat.mul_pos h2 (hl u (List.mem_cons_self u rest))
    · exact fun v hv => hl v (List.mem_cons_of_mem u hv)

theorem branchScore_pos (tbls : List (List (String × Int))) (units : List String)
    (l1 l2 : List String) (d : String)
    (hsplit : unmarkedUnits units = l1 ++ d :: l2)
    (hd : unitBranchScore tbls d = (1, 1))
    (hden : ∀ u ∈ unmarkedUnits units, 0 < (unitBranchScore tbls u).2) :
    0 < (branchScore tbls units).1 := by
  unfold branchScore
  rw [hsplit, List.foldl_append]
  simp only [List.foldl_cons]
  have hden1 : ∀ u ∈ l1, 0 < (unitBranchScore tbls u).2 := by
    intro u hu
    exact hden u (hsplit ▸ List.mem_append_left _ hu)
  have hden2 : ∀ u ∈ l2, 0 < (unitBranchScore tbls u).2 := by
    intro u hu
    exact hden u (hsplit ▸ List.mem_append_right _ (List.mem_cons_of_mem d hu))
  have hacc1 : 0 < (l1.foldl (fun a u => fracAdd a (unitBranchScore tbls u)) (0, 1)).2 :=
    foldl_fracAdd_den_pos _ l1 (0, 1) (by norm_num) hden1
  apply foldl_fracAdd_num_pos _ l2 _ ?hnum ?hden3 hden2
  case hnum =>
    rw [hd]
    show 0 < _ * 1 + 1 * _
    omega
  case hden3 =>
    rw [hd]
    show 0 < _ * 1
    omega

theorem inferBranch_soil_of (units : List String)
    (hmat : ∀ u ∈ units, lookupPhrase materialTable u = none)
    (hrock : ∀ u ∈ unmarkedUnits units, unitBranchScore rockTables u = (0, 1)) :
    inferBranch units = .SOIL := by
  unfold inferBranch
  rw [List.findSome?_eq_none_iff.mpr hmat]
  have hz := branchScore_all_zero rockTables units hrock
  simp [hz, fracLt]

theorem inferBranch_rock_of (units : List String)
    (hmat : ∀ u ∈ units, lookupPhrase materialTable u = none)
    (hsoil : ∀ u ∈ unmarkedUnits units, unitBranchScore soilTables u = (0, 1))
    (hpos : 0 < (branchScore rockTables units).1) :
    inferBranch units = .ROCK := by
  unfold inferBranch
  rw [List.findSome?_eq_none_iff.mpr hmat]
  have hz := branchScore_all_zero soilTables units hsoil
  simp [hz, fracLt, hpos]

/-! ## Round trip: the parsed record is well formed -/

theorem soilDisplay_eq (code : Int) : soilDisplay code = displayOf soilTypeTable code := rfl

/-- The shape invariant a parsed record satisfies, as needed for the
round trip: every set classification field holds a code of its category
table (unset fields hold the `-1` sentinel), and every secondary
constituent pairs a qualifier marker with a canonical soil-type display. -/
def WFRecord (r : litholog_soil_description_t) : Prop :=
  ((∃ e ∈ consistencyTable, r.consistency = e.2) ∨ r.consistency = -1) ∧
  ((∃ e ∈ densityTable, r.density = e.2) ∨ r.density = -1) ∧
  ((∃ e ∈ soilTypeTable, r.primary_soil_type = e.2) ∨ r.primary_soil_type = -1) ∧
  ((∃ e ∈ rockStrengthTable, r.rock_strength = e.2) ∨ r.rock_strength = -1) ∧
  ((∃ e ∈ weatheringTable, r.weathering_grade = e.2) ∨ r.weathering_grade = -1) ∧
  ((∃ e ∈ rockStructureTable, r.rock_structure = e.2) ∨ r.rock_structure = -1) ∧
  ((∃ e ∈ rockTypeTable, r.primary_rock_type = e.2) ∨ r.primary_rock_type = -1) ∧
  (∀ c ∈ r.secondary_constituents,
    qualifierMarkers.contains c.amount = true ∧
    ∃ en ∈ soilTypeTable, c.soil_type = displayOf soilTypeTable en.2)

theorem fieldVal_code_cases (tbl : List (String × Int)) (units : List String)
    (cond : Prop) [Decidable cond] :
    (∃ e ∈ tbl, fieldVal (if cond then fieldOf tbl units else none) = e.2) ∨
    fieldVal (if cond then fieldOf tbl units else none) = -1 := by
  split
  · cases hf : fieldOf tbl units with
    | none => exact Or.inr rfl
    | some vc =>
      left
      obtain ⟨e, he, he2⟩ := List.mem_map.mp (fieldOf_code_mem tbl units vc hf)
      exact ⟨e, he, he2.symm⟩
  · exact Or.inr rfl

theorem secGuard_marker (pr : String × String) (vc : Int × ℚ)
    (h : secGuard pr = some vc) : qualifierMarkers.contains pr.1 = true := by
  unfold secGuard at h
  split at h
  · next hc => exact hc
  · exact Option.noConfusion h

theorem extractSecondary_shape (primary : Option Int) (units : List String) :
    ∀ e ∈ extractSecondary primary units,
      qualifierMarkers.contains e.1.amount = true ∧
      ∃ en ∈ soilTypeTable, e.1.soil_type = displayOf soilTypeTable en.2 := by
  have aux : ∀ (prs : List (String × String))
      (acc : List (litholog_secondary_constituent_t × ℚ)),
      (∀ e ∈ acc, qualifierMarkers.contains e.1.amount = true ∧
        ∃ en ∈ soilTypeTable, e.1.soil_type = displayOf soilTypeTable en.2) →
      ∀ e ∈ prs.foldl (secondaryStep primary) acc,
        qualifierMarkers.contains e.1.amount = true ∧
        ∃ en ∈ soilTypeTable, e.1.soil_type = displayOf soilTypeTable en.2 := by
    intro prs
    induction prs with
    | nil => intro acc hacc e he; exact hacc e he
    | cons pr rest ih =>
      intro acc hacc e he
      simp only [List.foldl_cons] at he
      refine ih _ ?_ e he
      intro e2 he2
      cases hsg : secGuard pr with
      | none =>
        rw [secondaryStep_none primary acc pr hsg] at he2
        exact hacc e2 he2
      | some vc =>
        rw [secondaryStep_some primary acc pr vc.1 vc.2 (by rw [hsg])] at he2
        revert he2
        split
        · intro he2; exact hacc e2 he2
        · split
          · intro he2; exact hacc e2 he2
          · intro he2
            rcases List.mem_append.mp he2 with h2 | h2
            · exact hacc e2 h2
            · have h3 := List.mem_singleton.mp h2
              subst h3
              refine ⟨secGuard_marker pr vc hsg, ?_⟩
              obtain ⟨en, hen, hen2⟩ :=
                List.mem_map.mp (secGuard_code_mem pr vc.1 vc.2 (by rw [hsg]))
              exact ⟨en, hen, by
                show soilDisplay vc.1 = displayOf soilTypeTable en.2
                rw [soilDisplay_eq, hen2]⟩
  exact aux (units.zip units.tail) [] (fun e he => absurd he (List.not_mem_nil e))

theorem parse_WF (s : String) (r : litholog_soil_description_t)
    (h : litholog_parse s = some r) : WFRecord r := by
  have hr := parse_record_eq s r h
  subst hr
  refine ⟨?_, ?_, ?_, ?_, ?_, ?_, ?_, ?_⟩
  · rw [buildRecord_consistency]; exact fieldVal_code_cases _ _ _
  · rw [buildRecord_density]; exact fieldVal_code_cases _ _ _
  · rw [buildRecord_soil_type]; exact fieldVal_code_cases _ _ _
  · rw [buildRecord_rock_strength]; exact fieldVal_code_cases _ _ _
  · rw [buildRecord_weathering]; exact fieldVal_code_cases _ _ _
  · rw [buildRecord_structure]; exact fieldVal_code_cases _ _ _
  · rw [buildRecord_rock_type]; exact fieldVal_code_cases _ _ _
  · rw [buildRecord_secondary]
    intro c hc
    obtain ⟨e, he, he2⟩ := List.mem_map.mp hc
    exact he2 ▸ extractSecondary_shape _ _ e he

/-! ## Round trip: membership of generated units -/

theorem displayOf_mem_displaysOf (tbl : List (String × Int)) (e : String × Int)
    (he : e ∈ tbl) : displayOf tbl e.2 ∈ displaysOf tbl := by
  unfold displaysOf
  exact List.mem_map_of_mem _ he

theorem pieceOf_unset (tbl : List (String × Int)) (code : Int) (h : code = -1) :
    pieceOf tbl code = [] := by
  simp [pieceOf, h]

theorem pieceOf_set (tbl : List (String × Int)) (e : String × Int)
    (hnn : 0 ≤ e.2) : pieceOf tbl e.2 = [displayOf tbl e.2] := by
  unfold pieceOf
  rw [if_neg (by omega)]

theorem mem_pieceOf_displays (tbl : List (String × Int)) (code : Int)
    (hnn : ∀ e ∈ tbl, 0 ≤ e.2)
    (hc : (∃ e ∈ tbl, code = e.2) ∨ code = -1) :
    ∀ u ∈ pieceOf tbl code, u ∈ displaysOf tbl := by
  intro u hu
  rcases hc with ⟨e, he, heq⟩ | heq
  · rw [heq, pieceOf_set tbl e (hnn e he)] at hu
    rw [List.mem_singleton.mp hu]
    exact displayOf_mem_displaysOf tbl e he
  · rw [pieceOf_unset tbl code heq] at hu
    exact absurd hu (List.not_mem_nil u)

theorem mem_secFlat (secs : List litholog_secondary_constituent_t) :
    ∀ u ∈ (secs.map (fun c => [c.amount, c.soil_type])).flatten,
      ∃ c ∈ secs, u = c.amount ∨ u = c.soil_type := by
  intro u hu
  obtain ⟨l, hl, hul⟩ := List.mem_flatten.mp hu
  obtain ⟨c, hc, hcl⟩ := List.mem_map.mp hl
  subst hcl
  refine ⟨c, hc, ?_⟩
  rcases List.mem_cons.mp hul with h | h
  · exact Or.inl h
  · exact Or.inr (List.mem_singleton.mp h)

theorem with_marker : ("with" : String) ∈ qualifierMarkers := by decide

theorem with_contains : qualifierMarkers.contains "with" = true := by decide

theorem mem_secUnits (secs : List litholog_secondary_constituent_t)
    (hsec : ∀ c ∈ secs, qualifierMarkers.contains c.amount = true ∧
      ∃ en ∈ soilTypeTable, c.soil_type = displayOf soilTypeTable en.2) :
    ∀ u ∈ secUnits secs, u ∈ qualifierMarkers ∨ u ∈ displaysOf soilTypeTable := by
  intro u hu
  cases secs with
  | nil => simp [secUnits] at hu
  | cons c cs =>
    have hu2 : u ∈ "with" ::
        ((c :: cs).map (fun c => [c.amount, c.soil_type])).flatten := hu
    rcases List.mem_cons.mp hu2 with h | h
    · subst h
      exact Or.inl with_marker
    · obtain ⟨c2, hc2, hor⟩ := mem_secFlat (c :: cs) u h
      rcases hor with h2 | h2
      · subst h2
        exact Or.inl (List.elem_iff.mp (hsec c2 hc2).1)
      · obtain ⟨en, hen, he⟩ := (hsec c2 hc2).2
        subst h2
        rw [he]
        exact Or.inr (displayOf_mem_displaysOf _ en hen)

theorem genUnits_soil_mem (r : litholog_soil_description_t) (hWF : WFRecord r)
    (hm : r.material_type = .SOIL) (hp : 0 ≤ r.primary_soil_type) :
    ∀ u ∈ genUnits r, u ∈ soilStreamSet := by
  obtain ⟨hc, hd, hs, _, _, _, _, hsec⟩ := hWF
  intro u hu
  simp only [genUnits, hm, List.mem_append, List.mem_singleton] at hu
  simp only [soilStreamSet, List.mem_append]
  rcases hu with ((h | h) | h) | h
  · exact Or.inl (Or.inl (Or.inl (mem_pieceOf_displays _ _ (by decide) hc u h)))
  · exact Or.inl (Or.inl (Or.inr (mem_pieceOf_displays _ _ (by decide) hd u h)))
  · rcases hs with ⟨e, he, heq⟩ | heq
    · subst h
      rw [heq]
      exact Or.inl (Or.inr (displayOf_mem_displaysOf soilTypeTable e he))
    · omega
  · rcases mem_secUnits _ hsec u h with h2 | h2
    · exact Or.inr h2
    · exact Or.inl (Or.inr h2)

theorem genUnits_rock_mem (r : litholog_soil_description_t) (hWF : WFRecord r)
    (hm : r.material_type = .ROCK) (hp : 0 ≤ r.primary_rock_type) :
    ∀ u ∈ genUnits r, u ∈ rockStreamSet := by
  obtain ⟨_, _, _, hrs, hw, hst, hrt, hsec⟩ := hWF
  intro u hu
  simp only [genUnits, hm, List.mem_append, List.mem_singleton] at hu
  simp only [rockStreamSet, rockUnmarkedSet, List.mem_append]
  rcases hu with (((h | h) | h) | h) | h
  · exact Or.inl (Or.inl (Or.inl (Or.inl (Or.inl
      (mem_pieceOf_displays _ _ (by decide) hrs u h)))))
  · rcases hrt with ⟨e, he, heq⟩ | heq
    · subst h
      rw [heq]
      exact Or.inl (Or.inl (Or.inl (Or.inl (Or.inr
        (displayOf_mem_displaysOf rockTypeTable e he)))))
    · omega
  · exact Or.inl (Or.inl (Or.inl (Or.inr
      (mem_pieceOf_displays _ _ (by decide) hw u h))))
  · exact Or.inl (Or.inl (Or.inr (mem_pieceOf_displays _ _ (by decide) hst u h)))
  · rcases mem_secUnits _ hsec u h with h2 | h2
    · exact Or.inl (Or.inr h2)
    · exact Or.inr h2

theorem soilStreamSet_sub_gen : ∀ u ∈ soilStreamSet, u ∈ genUnitTable := by decide

theorem rockStreamSet_sub_gen : ∀ u ∈ rockStreamSet, u ∈ genUnitTable := by decide

theorem rock_displays_not_markers :
    ∀ u ∈ displaysOf rockStrengthTable ++ displaysOf rockTypeTable ++
        displaysOf weatheringTable ++ displaysOf rockStructureTable,
      qualifierMarkers.contains u = false := by decide

/-- A generated description normalizes back to exactly the generated
units: the tokenizer splits each piece into its words and the greedy
merge re-assembles every multi-word unit. -/
theorem unitsOf_generated (r : litholog_soil_description_t) (g : String)
    (hgen : ∀ u ∈ genUnits r, u ∈ genUnitTable)
    (hg : g = String.mk (joinPieces (fullPieces r))) :
    unitsOf g = genUnits r := by
  rw [hg]
  show mergePhrases (tokensOf (String.mk (joinPieces (fullPieces r)))) = genUnits r
  rw [tokensOf_joinPieces, tokens_fullPieces]
  exact mergePhrases_flat_units (genUnits r) hgen

/-! ## Round trip: branch inference of the re-parse -/

theorem unmarkedGo_secTokens :
    ∀ (secs : List litholog_secondary_constituent_t) (p : String),
      (∀ c ∈ secs, qualifierMarkers.contains c.amount = true) →
      ∀ u ∈ unmarkedGo (some p)
          ((secs.map (fun c => [c.amount, c.soil_type])).flatten),
        ∃ c ∈ secs, u = c.amount := by
  intro secs
  induction secs with
  | nil =>
    intro p _ u hu
    simp [unmarkedGo] at hu
  | cons c cs ih =>
    intro p hm u hu
    have hflat : ((c :: cs).map (fun c => [c.amount, c.soil_type])).flatten =
        c.amount :: c.soil_type ::
          ((cs.map (fun c => [c.amount, c.soil_type])).flatten) := by simp
    rw [hflat, unmarkedGo_cons, unmarkedGo_cons] at hu
    rw [show prevIsMarker (some c.amount) = qualifierMarkers.contains c.amount from rfl,
        hm c (List.mem_cons_self c cs)] at hu
    rcases List.mem_append.mp hu with h | h
    · revert h
      split
      · intro h
        exact absurd h (List.not_mem_nil u)
      · intro h
        exact ⟨c, List.mem_cons_self c cs, List.mem_singleton.mp h⟩
    · rw [if_pos rfl, List.nil_append] at h
      obtain ⟨c2, hc2, he⟩ :=
        ih c.soil_type (fun c2 hc2 => hm c2 (List.mem_cons_of_mem c hc2)) u h
      exact ⟨c2, List.mem_cons_of_mem c hc2, he⟩

theorem secUnits_unmarked_markers (secs : List litholog_secondary_constituent_t)
    (q : Option String) (hq : prevIsMarker q = false)
    (hm : ∀ c ∈ secs, qualifierMarkers.contains c.amount = true) :
    ∀ u ∈ unmarkedGo q (secUnits secs), u ∈ qualifierMarkers := by
  intro u hu
  cases secs with
  | nil => simp [secUnits, unmarkedGo] at hu
  | cons c cs =>
    have hu2 : u ∈ unmarkedGo q ("with" ::
        ((c :: cs).map (fun c => [c.amount, c.soil_type])).flatten) := hu
    rw [unmarkedGo_cons, hq] at hu2
    rw [if_neg (by simp)] at hu2
    rcases List.mem_append.mp hu2 with h | h
    · rw [List.mem_singleton.mp h]
      exact with_marker
    · obtain ⟨c2, hc2, he⟩ := unmarkedGo_secTokens (c :: cs) "with" hm u h
      rw [he]
      exact List.elem_iff.mp (hm c2 hc2)

theorem rock_core_shape (r : litholog_soil_description_t)
    (hm : r.material_type = .ROCK) :
    genUnits r = (pieceOf rockStrengthTable r.rock_strength ++
      ([displayOf rockTypeTable r.primary_rock_type] ++
       (pieceOf weatheringTable r.weathering_grade ++
        pieceOf rockStructureTable r.rock_structure))) ++
      secUnits r.secondary_constituents := by
  simp [genUnits, hm, List.append_assoc]

theorem rock_core_not_markers (r : litholog_soil_description_t) (hWF : WFRecord r)
    (hp : 0 ≤ r.primary_rock_type) :
    ∀ u ∈ pieceOf rockStrengthTable r.rock_strength ++
        ([displayOf rockTypeTable r.primary_rock_type] ++
         (pieceOf weatheringTable r.weathering_grade ++
          pieceOf rockStructureTable r.rock_structure)),
      qualifierMarkers.contains u = false := by
  obtain ⟨_, _, _, hrs, hw, hst, hrt, _⟩ := hWF
  intro u hu
  apply rock_displays_not_markers
  simp only [List.mem_append, List.mem_singleton] at hu ⊢
  rcases hu with h | h | h | h
  · exact Or.inl (Or.inl (Or.inl (mem_pieceOf_displays _ _ (by decide) hrs u h)))
  · rcases hrt with ⟨e, he, heq⟩ | heq
    · subst h
      rw [heq]
      exact Or.inl (Or.inl (Or.inr (displayOf_mem_displaysOf rockTypeTable e he)))
    · omega
  · exact Or.inl (Or.inr (mem_pieceOf_displays _ _ (by decide) hw u h))
  · exact Or.inr (mem_pieceOf_displays _ _ (by decide) hst u h)

theorem rock_unmarked_eq (r : litholog_soil_description_t) (hWF : WFRecord r)
    (hm : r.material_type = .ROCK) (hp : 0 ≤ r.primary_rock_type) :
    unmarkedUnits (genUnits r) =
      (pieceOf rockStrengthTable r.rock_strength ++
       ([displayOf rockTypeTable r.primary_rock_type] ++
        (pieceOf weatheringTable r.weathering_grade ++
         pieceOf rockStructureTable r.rock_structure))) ++
      unmarkedGo (lastPrev none (pieceOf rockStrengthTable r.rock_strength ++
        ([displayOf rockTypeTable r.primary_rock_type] ++
         (pieceOf weatheringTable r.weathering_grade ++
          pieceOf rockStructureTable r.rock_structure))))
        (secUnits r.secondary_constituents) := by
  show unmarkedGo none (genUnits r) = _
  rw [rock_core_shape r hm, unmarkedGo_append]
  rw [unmarkedGo_all _ none rfl (rock_core_not_markers r hWF hp)]

theorem rock_last_not_marker (r : litholog_soil_description_t) (hWF : WFRecord r)
    (hp : 0 ≤ r.primary_rock_type) :
    prevIsMarker (lastPrev none (pieceOf rockStrengthTable r.rock_strength ++
      ([displayOf rockTypeTable r.primary_rock_type] ++
       (pieceOf weatheringTable r.weathering_grade ++
        pieceOf rockStructureTable r.rock_structure)))) = false := by
  rcases lastPrev_mem (pieceOf rockStrengthTable r.rock_strength ++
      ([displayOf rockTypeTable r.primary_rock_type] ++
       (pieceOf weatheringTable r.weathering_grade ++
        pieceOf rockStructureTable r.rock_structure))) none with h | ⟨u, hu, h⟩
  · rw [h]
    rfl
  · rw [h]
    exact rock_core_not_markers r hWF hp u hu

theorem rock_unmarked_sub (r : litholog_soil_description_t) (hWF : WFRecord r)
    (hm : r.material_type = .ROCK) (hp : 0 ≤ r.primary_rock_type) :
    ∀ u ∈ unmarkedUnits (genUnits r), u ∈ rockUnmarkedSet := by
  intro u hu
  rw [rock_unmarked_eq r hWF hm hp] at hu
  rcases List.mem_append.mp hu with h | h
  · obtain ⟨_, _, _, hrs, hw, hst, hrt, _⟩ := hWF
    simp only [List.mem_append, List.mem_singleton] at h
    simp only [rockUnmarkedSet, List.mem_append]
    rcases h with h | h | h | h
    · exact Or.inl (Or.inl (Or.inl (Or.inl
        (mem_pieceOf_displays _ _ (by decide) hrs u h))))
    · rcases hrt with ⟨e, he, heq⟩ | heq
      · subst h
        rw [heq]
        exact Or.inl (Or.inl (Or.inl (Or.inr
          (displayOf_mem_displaysOf rockTypeTable e he))))
      · omega
    · exact Or.inl (Or.inl (Or.inr (mem_pieceOf_displays _ _ (by decide) hw u h)))
    · exact Or.inl (Or.inr (mem_pieceOf_displays _ _ (by decide) hst u h))
  · have hmark := secUnits_unmarked_markers r.secondary_constituents _
      (rock_last_not_marker r hWF hp)
      (fun c hc => (hWF.2.2.2.2.2.2.2 c hc).1) u h
    simp only [rockUnmarkedSet, List.mem_append]
    exact Or.inr hmark

theorem rock_unmarked_split (r : litholog_soil_description_t) (hWF : WFRecord r)
    (hm : r.material_type = .ROCK) (hp : 0 ≤ r.primary_rock_type) :
    ∃ l2, unmarkedUnits (genUnits r) =
      pieceOf rockStrengthTable r.rock_strength ++
        displayOf rockTypeTable r.primary_rock_type :: l2 := by
  refine ⟨(pieceOf weatheringTable r.weathering_grade ++
      pieceOf rockStructureTable r.rock_structure) ++
      unmarkedGo (lastPrev none (pieceOf rockStrengthTable r.rock_strength ++
        ([displayOf rockTypeTable r.primary_rock_type] ++
         (pieceOf weatheringTable r.weathering_grade ++
          pieceOf rockStructureTable r.rock_structure))))
        (secUnits r.secondary_constituents), ?_⟩
  rw [rock_unmarked_eq r hWF hm hp]
  simp [List.append_assoc]

theorem reparse_branch_soil (r : litholog_soil_description_t) (hWF : WFRecord r)
    (hm : r.material_type = .SOIL) (hp : 0 ≤ r.primary_soil_type) :
    inferBranch (genUnits r) = .SOIL := by
  apply inferBranch_soil_of
  · intro u hu
    exact soil_material_none u (genUnits_soil_mem r hWF hm hp u hu)
  · intro u hu
    exact soil_rock_scores_zero u
      (genUnits_soil_mem r hWF hm hp u (unmarkedUnits_subset _ u hu))

theorem reparse_branch_rock (r : litholog_soil_description_t) (hWF : WFRecord r)
    (hm : r.material_type = .ROCK) (hp : 0 ≤ r.primary_rock_type) :
    inferBranch (genUnits r) = .ROCK := by
  apply inferBranch_rock_of
  · intro u hu
    exact rock_material_none u (genUnits_rock_mem r hWF hm hp u hu)
  · intro u hu
    exact rock_soil_scores_zero u (rock_unmarked_sub r hWF hm hp u hu)
  · obtain ⟨l2, hsplit⟩ := rock_unmarked_split r hWF hm hp
    apply branchScore_pos rockTables _ _ l2 _ hsplit
    · apply rock_type_scores_one
      rcases hWF.2.2.2.2.2.2.1 with ⟨e, he, heq⟩ | heq
      · rw [heq]
        exact displayOf_mem_displaysOf rockTypeTable e he
      · omega
    · intro u hu
      exact rock_scores_den_pos u (rock_unmarked_sub r hWF hm hp u hu)

/-! ## Round trip: field resolution of the re-parse (Soil) -/

theorem resolve_none_of (tbl : List (String × Int)) (set : List String)
    (hset : ∀ u ∈ set, (resolveUnit tbl u).isNone = true)
    (u : String) (hu : u ∈ set) : resolveUnit tbl u = none :=
  Option.isNone_iff_eq_none.mp (hset u hu)

theorem reparse_fields_soil (r : litholog_soil_description_t) (hWF : WFRecord r)
    (hm : r.material_type = .SOIL) (hp : 0 ≤ r.primary_soil_type) :
    fieldVal (fieldOf consistencyTable (genUnits r)) = r.consistency ∧
    fieldVal (fieldOf densityTable (genUnits r)) = r.density ∧
    fieldVal (fieldOf soilTypeTable (genUnits r)) = r.primary_soil_type := by
  obtain ⟨hc, hd, hs, _, _, _, _, hsec⟩ := hWF
  have hconsM : ∀ u ∈ pieceOf consistencyTable r.consistency,
      u ∈ displaysOf consistencyTable :=
    mem_pieceOf_displays _ _ (by decide) hc
  have hdensM : ∀ u ∈ pieceOf densityTable r.density, u ∈ displaysOf densityTable :=
    mem_pieceOf_displays _ _ (by decide) hd
  have hsP : ∃ e ∈ soilTypeTable, r.primary_soil_type = e.2 := by
    rcases hs with h | h
    · exact h
    · omega
  obtain ⟨es, hes, heqs⟩ := hsP
  have hsecM : ∀ u ∈ secUnits r.secondary_constituents,
      u ∈ qualifierMarkers ∨ u ∈ displaysOf soilTypeTable := mem_secUnits _ hsec
  refine ⟨?_, ?_, ?_⟩
  · rcases hc with ⟨e, he, heq⟩ | heq
    · have hshape : genUnits r = ([] : List String) ++
          displayOf consistencyTable e.2 ::
          (pieceOf densityTable r.density ++
           ([displayOf soilTypeTable r.primary_soil_type] ++
            secUnits r.secondary_constituents)) := by
        simp [genUnits, hm, heq,
          pieceOf_set consistencyTable e ((by decide : ∀ x ∈ consistencyTable, 0 ≤ x.2) e he)]
      rw [hshape,
        fieldVal_resolved consistencyTable [] _ _ e.2
          (fun u hu => absurd hu (List.not_mem_nil u))
          (resolveUnit_of_lookup _ _ _
            (display_lookup_exact consistencyTable (by decide) e he)),
        heq]
    · rw [heq]
      apply fieldVal_unresolved
      intro u hu
      simp only [genUnits, hm, List.mem_append, List.mem_singleton] at hu
      rcases hu with ((h | h) | h) | h
      · rw [pieceOf_unset _ _ heq] at h
        exact absurd h (List.not_mem_nil u)
      · exact resolve_none_of _ _ consistency_others_none u
          (List.mem_append_left _ (List.mem_append_left _ (hdensM u h)))
      · subst h
        rw [heqs]
        exact resolve_none_of _ _ consistency_others_none _
          (List.mem_append_left _ (List.mem_append_right _
            (displayOf_mem_displaysOf soilTypeTable es hes)))
      · rcases hsecM u h with h2 | h2
        · exact resolve_none_of _ _ consistency_others_none u
            (List.mem_append_right _ h2)
        · exact resolve_none_of _ _ consistency_others_none u
            (List.mem_append_left _ (List.mem_append_right _ h2))
  · rcases hd with ⟨e, he, heq⟩ | heq
    · have hshape : genUnits r = pieceOf consistencyTable r.consistency ++
          displayOf densityTable e.2 ::
          ([displayOf soilTypeTable r.primary_soil_type] ++
           secUnits r.secondary_constituents) := by
        simp [genUnits, hm, heq,
          pieceOf_set densityTable e ((by decide : ∀ x ∈ densityTable, 0 ≤ x.2) e he),
          List.append_assoc]
      rw [hshape,
        fieldVal_resolved densityTable _ _ _ e.2
          (fun u hu => resolve_none_of _ _ density_others_none u
            (List.mem_append_left _ (List.mem_append_left _ (hconsM u hu))))
          (resolveUnit_of_lookup _ _ _
            (display_lookup_exact densityTable (by decide) e he)),
        heq]
    · rw [heq]
      apply fieldVal_unresolved
      intro u hu
      simp only [genUnits, hm, List.mem_append, List.mem_singleton] at hu
      rcases hu with ((h | h) | h) | h
      · exact resolve_none_of _ _ density_others_none u
          (List.mem_append_left _ (List.mem_append_left _ (hconsM u h)))
      · rw [pieceOf_unset _ _ heq] at h
        exact absurd h (List.not_mem_nil u)
      · subst h
        rw [heqs]
        exact resolve_none_of _ _ density_others_none _
          (List.mem_append_left _ (List.mem_append_right _
            (displayOf_mem_displaysOf soilTypeTable es hes)))
      · rcases hsecM u h with h2 | h2
        · exact resolve_none_of _ _ density_others_none u
            (List.mem_append_right _ h2)
        · exact resolve_none_of _ _ density_others_none u
            (List.mem_append_left _ (List.mem_append_right _ h2))
  · have hpre : ∀ u ∈ pieceOf consistencyTable r.consistency ++
        pieceOf densityTable r.density, resolveUnit soilTypeTable u = none := by
      intro u hu
      rcases List.mem_append.mp hu with h | h
      · exact resolve_none_of _ _ soil_pre_none u
          (List.mem_append_left _ (hconsM u h))
      · exact resolve_none_of _ _ soil_pre_none u
          (List.mem_append_right _ (hdensM u h))
    have hshape : genUnits r = (pieceOf consistencyTable r.consistency ++
        pieceOf densityTable r.density) ++
        displayOf soilTypeTable es.2 :: secUnits r.secondary_constituents := by
      simp [genUnits, hm, heqs, List.append_assoc]
    rw [hshape,
      fieldVal_resolved soilTypeTable _ _ _ es.2 hpre
        (resolveUnit_of_lookup _ _ _
          (display_lookup_exact soilTypeTable (by decide) es hes)),
      heqs]

/-! ## Round trip: field resolution of the re-parse (Rock) -/

theorem reparse_fields_rock (r : litholog_soil_description_t) (hWF : WFRecord r)
    (hm : r.material_type = .ROCK) (hp : 0 ≤ r.primary_rock_type) :
    fieldVal (fieldOf rockStrengthTable (genUnits r)) = r.rock_strength ∧
    fieldVal (fieldOf rockTypeTable (genUnits r)) = r.primary_rock_type ∧
    fieldVal (fieldOf weatheringTable (genUnits r)) = r.weathering_grade ∧
    fieldVal (fieldOf rockStructureTable (genUnits r)) = r.rock_structure := by
  obtain ⟨_, _, _, hrs, hw, hst, hrt, hsec⟩ := hWF
  have hrsM := mem_pieceOf_displays rockStrengthTable r.rock_strength (by decide) hrs
  have hwM := mem_pieceOf_displays weatheringTable r.weathering_grade (by decide) hw
  have hstM := mem_pieceOf_displays rockStructureTable r.rock_structure (by decide) hst
  have hrtP : ∃ e ∈ rockTypeTable, r.primary_rock_type = e.2 := by
    rcases hrt with h | h
    · exact h
    · omega
  obtain ⟨er, her, heqr⟩ := hrtP
  have hsecM := mem_secUnits r.secondary_constituents hsec
  refine ⟨?_, ?_, ?_, ?_⟩
  · rcases hrs with ⟨e, he, heq⟩ | heq
    · have hshape : genUnits r = ([] : List String) ++
          displayOf rockStrengthTable e.2 ::
          ([displayOf rockTypeTable r.primary_rock_type] ++
           pieceOf weatheringTable r.weathering_grade ++
           pieceOf rockStructureTable r.rock_structure ++
           secUnits r.secondary_constituents) := by
        simp [genUnits, hm, heq,
          pieceOf_set rockStrengthTable e
            ((by decide : ∀ x ∈ rockStrengthTable, 0 ≤ x.2) e he),
          List.append_assoc]
      rw [hshape,
        fieldVal_resolved rockStrengthTable [] _ _ e.2
          (fun u hu => absurd hu (List.not_mem_nil u))
          (resolveUnit_of_lookup _ _ _
            (display_lookup_exact rockStrengthTable (by decide) e he)),
        heq]
    · rw [heq]
      apply fieldVal_unresolved
      intro u hu
      simp only [genUnits, hm, List.mem_append, List.mem_singleton] at hu
      rcases hu with (((h | h) | h) | h) | h
      · rw [pieceOf_unset _ _ heq] at h
        exact absurd h (List.not_mem_nil u)
      · subst h
        rw [heqr]
        exact resolve_none_of _ _ rock_strength_others_none _
          (List.mem_append_left _ (List.mem_append_left _ (List.mem_append_left _
            (List.mem_append_left _ (displayOf_mem_displaysOf rockTypeTable er her)))))
      · exact resolve_none_of _ _ rock_strength_others_none u
          (List.mem_append_left _ (List.mem_append_left _ (List.mem_append_left _
            (List.mem_append_right _ (hwM u h)))))
      · exact resolve_none_of _ _ rock_strength_others_none u
          (List.mem_append_left _ (List.mem_append_left _
            (List.mem_append_right _ (hstM u h))))
      · rcases hsecM u h with h2 | h2
        · exact resolve_none_of _ _ rock_strength_others_none u
            (List.mem_append_left _ (List.mem_append_right _ h2))
        · exact resolve_none_of _ _ rock_strength_others_none u
            (List.mem_append_right _ h2)
  · have hshape : genUnits r = pieceOf rockStrengthTable r.rock_strength ++
        displayOf rockTypeTable er.2 ::
        (pieceOf weatheringTable r.weathering_grade ++
         pieceOf rockStructureTable r.rock_structure ++
         secUnits r.secondary_constituents) := by
      simp [genUnits, hm, heqr, List.append_assoc]
    rw [hshape,
      fieldVal_resolved rockTypeTable _ _ _ er.2
        (fun u hu => resolve_none_of _ _ rock_type_pre_none u (hrsM u hu))
        (resolveUnit_of_lookup _ _ _
          (display_lookup_exact rockTypeTable (by decide) er her)),
      heqr]
  · rcases hw with ⟨e, he, heq⟩ | heq
    · have hshape : genUnits r = (pieceOf rockStrengthTable r.rock_strength ++
          [displayOf rockTypeTable r.primary_rock_type]) ++
          displayOf weatheringTable e.2 ::
          (pieceOf rockStructureTable r.rock_structure ++
           secUnits r.secondary_constituents) := by
        simp [genUnits, hm, heq,
          pieceOf_set weatheringTable e
            ((by decide : ∀ x ∈ weatheringTable, 0 ≤ x.2) e he),
          List.append_assoc]
      have hpre : ∀ u ∈ pieceOf rockStrengthTable r.rock_strength ++
          [displayOf rockTypeTable r.primary_rock_type],
          resolveUnit weatheringTable u = none := by
        intro u hu
        rcases List.mem_append.mp hu with h | h
        · exact resolve_none_of _ _ weathering_others_none u
            (List.mem_append_left _ (List.mem_append_left _ (List.mem_append_left _
              (List.mem_append_left _ (hrsM u h)))))
        · rw [List.mem_singleton.mp h, heqr]
          exact resolve_none_of _ _ weathering_others_none _
            (List.mem_append_left _ (List.mem_append_left _ (List.mem_append_left _
              (List.mem_append_right _ (displayOf_mem_displaysOf rockTypeTable er her)))))
      rw [hshape,
        fieldVal_resolved weatheringTable _ _ _ e.2 hpre
          (resolveUnit_of_lookup _ _ _
            (display_lookup_exact weatheringTable (by decide) e he)),
        heq]
    · rw [heq]
      apply fieldVal_unresolved
      intro u hu
      simp only [genUnits, hm, List.mem_append, List.mem_singleton] at hu
      rcases hu with (((h | h) | h) | h) | h
      · exact resolve_none_of _ _ weathering_others_none u
          (List.mem_append_left _ (List.mem_append_left _ (List.mem_append_left _
            (List.mem_append_left _ (hrsM u h)))))
      · subst h
        rw [heqr]
        exact resolve_none_of _ _ weathering_others_none _
          (List.mem_append_left _ (List.mem_append_left _ (List.mem_append_left _
            (List.mem_append_right _ (displayOf_mem_displaysOf rockTypeTable er her)))))
      · rw [pieceOf_unset _ _ heq] at h
        exact absurd h (List.not_mem_nil u)
      · exact resolve_none_of _ _ weathering_others_none u
          (List.mem_append_left _ (List.mem_append_left _
            (List.mem_append_right _ (hstM u h))))
      · rcases hsecM u h with h2 | h2
        · exact resolve_none_of _ _ weathering_others_none u
            (List.mem_append_left _ (List.mem_append_right _ h2))
        · exact resolve_none_of _ _ weathering_others_none u
            (List.mem_append_right _ h2)
  · rcases hst with ⟨e, he, heq⟩ | heq
    · have hshape : genUnits r = (pieceOf rockStrengthTable r.rock_strength ++
          [displayOf rockTypeTable r.primary_rock_type] ++
          pieceOf weatheringTable r.weathering_grade) ++
          displayOf rockStructureTable e.2 ::
          secUnits r.secondary_constituents := by
        simp [genUnits, hm, heq,
          pieceOf_set rockStructureTable e
            ((by decide : ∀ x ∈ rockStructureTable, 0 ≤ x.2) e he),
          List.append_assoc]
      have hpre : ∀ u ∈ pieceOf rockStrengthTable r.rock_strength ++
          [displayOf rockTypeTable r.primary_rock_type] ++
          pieceOf weatheringTable r.weathering_grade,
          resolveUnit rockStructureTable u = none := by
        intro u hu
        rcases List.mem_append.mp hu with h | h
        · rcases List.mem_append.mp h with h2 | h2
          · exact resolve_none_of _ _ structure_others_none u
              (List.mem_append_left _ (List.mem_append_left _ (List.mem_append_left _
                (List.mem_append_left _ (hrsM u h2)))))
          · rw [List.mem_singleton.mp h2, heqr]
            exact resolve_none_of _ _ structure_others_none _
              (List.mem_append_left _ (List.mem_append_left _ (List.mem_append_left _
                (List.mem_append_right _ (displayOf_mem_displaysOf rockTypeTable er her)))))
        · exact resolve_none_of _ _ structure_others_none u
            (List.mem_append_left _ (List.mem_append_left _
              (List.mem_append_right _ (hwM u h))))
      rw [hshape,
        fieldVal_resolved rockStructureTable _ _ _ e.2 hpre
          (resolveUnit_of_lookup _ _ _
            (display_lookup_exact rockStructureTable (by decide) e he)),
        heq]
    · rw [heq]
      apply fieldVal_unresolved
      intro u hu
      simp only [genUnits, hm, List.mem_append, List.mem_singleton] at hu
      rcases hu with (((h | h) | h) | h) | h
      · exact resolve_none_of _ _ structure_others_none u
          (List.mem_append_left _ (List.mem_append_left _ (List.mem_append_left _
            (List.mem_append_left _ (hrsM u h)))))
      · subst h
        rw [heqr]
        exact resolve_none_of _ _ structure_others_none _
          (List.mem_append_left _ (List.mem_append_left _ (List.mem_append_left _
            (List.mem_append_right _ (displayOf_mem_displaysOf rockTypeTable er her)))))
      · exact resolve_none_of _ _ structure_others_none u
          (List.mem_append_left _ (List.mem_append_left _
            (List.mem_append_right _ (hwM u h))))
      · rw [pieceOf_unset _ _ heq] at h
        exact absurd h (List.not_mem_nil u)
      · rcases hsecM u h with h2 | h2
        · exact resolve_none_of _ _ structure_others_none u
            (List.mem_append_left _ (List.mem_append_right _ h2))
        · exact resolve_none_of _ _ structure_others_none u
            (List.mem_append_right _ h2)

/-! ## C1: structural idempotence of parse ∘ generate -/

theorem soil_record_rock_unset (s : String) (r : litholog_soil_description_t)
    (h : litholog_parse s = some r) (hm : r.material_type = .SOIL) :
    r.rock_strength = -1 ∧ r.weathering_grade = -1 ∧
    r.rock_structure = -1 ∧ r.primary_rock_type = -1 := by
  have hr := parse_record_eq s r h
  subst hr
  rw [buildRecord_material] at hm
  rw [buildRecord_rock_strength, buildRecord_weathering, buildRecord_structure,
    buildRecord_rock_type, hm]
  refine ⟨?_, ?_, ?_, ?_⟩ <;> simp [fieldVal]

theorem rock_record_soil_unset (s : String) (r : litholog_soil_description_t)
    (h : litholog_parse s = some r) (hm : r.material_type = .ROCK) :
    r.consistency = -1 ∧ r.density = -1 ∧ r.primary_soil_type = -1 := by
  have hr := parse_record_eq s r h
  subst hr
  rw [buildRecord_material] at hm
  rw [buildRecord_consistency, buildRecord_density, buildRecord_soil_type, hm]
  refine ⟨?_, ?_, ?_⟩ <;> simp [fieldVal]

set_option maxHeartbeats 1000000 in
/-- C1: for every record `r` produced by `litholog_parse` for which full
generation succeeds, re-parsing the generated description yields a
record with the same material branch and the same primary-branch
classification fields (consistency, density, primary soil type for
Soil; rock strength, weathering grade, rock structure, primary rock
type for Rock) as `r`; the two texts themselves need not be equal. -/
theorem parse_generate_roundtrip (s g : String) (r r2 : litholog_soil_description_t)
    (hp : litholog_parse s = some r)
    (hg : litholog_generate_description r = some g)
    (hp2 : litholog_parse g = some r2) :
    r2.material_type = r.material_type ∧
    r2.consistency = r.consistency ∧
    r2.density = r.density ∧
    r2.primary_soil_type = r.primary_soil_type ∧
    r2.rock_strength = r.rock_strength ∧
    r2.weathering_grade = r.weathering_grade ∧
    r2.rock_structure = r.rock_structure ∧
    r2.primary_rock_type = r.primary_rock_type := by
  have hWF := parse_WF s r hp
  obtain ⟨hgeq, hpsoil, hprock⟩ := generate_some_inv r g hg
  have hr2 := parse_record_eq g r2 hp2
  cases hm : r.material_type with
  | SOIL =>
    have hps := hpsoil hm
    have hgU : ∀ u ∈ genUnits r, u ∈ genUnitTable :=
      fun u hu => soilStreamSet_sub_gen u (genUnits_soil_mem r hWF hm hps u hu)
    have hunits : unitsOf g = genUnits r := unitsOf_generated r g hgU hgeq
    have hbr : inferBranch (unitsOf g) = .SOIL := by
      rw [hunits]
      exact reparse_branch_soil r hWF hm hps
    obtain ⟨hfc, hfd, hfs⟩ := reparse_fields_soil r hWF hm hps
    obtain ⟨hu1, hu2, hu3, hu4⟩ := soil_record_rock_unset s r hp hm
    subst hr2
    refine ⟨?_, ?_, ?_, ?_, ?_, ?_, ?_, ?_⟩
    · rw [buildRecord_material, hbr]
    · rw [buildRecord_consistency, hbr, if_pos rfl, hunits]
      exact hfc
    · rw [buildRecord_density, hbr, if_pos rfl, hunits]
      exact hfd
    · rw [buildRecord_soil_type, hbr, if_pos rfl, hunits]
      exact hfs
    · rw [buildRecord_rock_strength, hbr, if_neg (by simp), hu1]
      rfl
    · rw [buildRecord_weathering, hbr, if_neg (by simp), hu2]
      rfl
    · rw [buildRecord_structure, hbr, if_neg (by simp), hu3]
      rfl
    · rw [buildRecord_rock_type, hbr, if_neg (by simp), hu4]
      rfl
  | ROCK =>
    have hps := hprock hm
    have hgU : ∀ u ∈ genUnits r, u ∈ genUnitTable :=
      fun u hu => rockStreamSet_sub_gen u (genUnits_rock_mem r hWF hm hps u hu)
    have hunits : unitsOf g = genUnits r := unitsOf_generated r g hgU hgeq
    have hbr : inferBranch (unitsOf g) = .ROCK := by
      rw [hunits]
      exact reparse_branch_rock r hWF hm hps
    obtain ⟨hf1, hf2, hf3, hf4⟩ := reparse_fields_rock r hWF hm hps
    obtain ⟨hu1, hu2, hu3⟩ := rock_record_soil_unset s r hp hm
    subst hr2
    refine ⟨?_, ?_, ?_, ?_, ?_, ?_, ?_, ?_⟩
    · rw [buildRecord_material, hbr]
    · rw [buildRecord_consistency, hbr, if_neg (by simp), hu1]
      rfl
    · rw [buildRecord_density, hbr, if_neg (by simp), hu2]
      rfl
    · rw [buildRecord_soil_type, hbr, if_neg (by simp), hu3]
      rfl
    · rw [buildRecord_rock_strength, hbr, if_pos rfl, hunits]
      exact hf1
    · rw [buildRecord_weathering, hbr, if_pos rfl, hunits]
      exact hf3
    · rw [buildRecord_structure, hbr, if_pos rfl, hunits]
      exact hf4
    · rw [buildRecord_rock_type, hbr, if_pos rfl, hunits]
      exact hf2

set_option maxHeartbeats 4000000 in
/-- Witness for C1 at a concrete input. -/
theorem parse_generate_roundtrip_witness :
    ∃ r g r2, litholog_parse "stiff clay" = some r ∧
      litholog_generate_description r = some g ∧
      litholog_parse g = some r2 ∧
      r2.material_type = r.material_type ∧
      r2.consistency = r.consistency ∧
      r2.density = r.density ∧
      r2.primary_soil_type = r.primary_soil_type ∧
      r2.rock_strength = r.rock_strength ∧
      r2.weathering_grade = r.weathering_grade ∧
      r2.rock_structure = r.rock_structure ∧
      r2.primary_rock_type = r.primary_rock_type := by
  obtain ⟨r0, hr0⟩ := Option.isSome_iff_exists.mp
    (by decide : (litholog_parse "stiff clay").isSome = true)
  have h2 : ((litholog_parse "stiff clay").bind
      litholog_generate_description).isSome = true := by decide
  rw [hr0] at h2
  have h2b : (litholog_generate_description r0).isSome = true := h2
  obtain ⟨g0, hg0⟩ := Option.isSome_iff_exists.mp h2b
  have h3 : (((litholog_parse "stiff clay").bind
      litholog_generate_description).bind litholog_parse).isSome = true := by decide
  rw [hr0] at h3
  have h3b : ((litholog_generate_description r0).bind litholog_parse).isSome = true := h3
  rw [hg0] at h3b
  have h3c : (litholog_parse g0).isSome = true := h3b
  obtain ⟨r20, hr20⟩ := Option.isSome_iff_exists.mp h3c
  exact ⟨r0, g0, r20, hr0, hg0, hr20,
    parse_generate_roundtrip "stiff clay" g0 r0 r20 hr0 hg0 hr20⟩
